import Mathlib

/-!
Verification development for the cortana command-line framework
(command registry + resolution state machine in `command.go` / `cortana.go`,
and the declarative binding engine in `cortana.go`).

Go strings are modelled as byte lists (`Tok`); the model covers ASCII
tokens exactly (Go's `strings.TrimSpace` additionally trims multi-byte
Unicode whitespace, which never occurs in the byte range the theorems
quantify over).
-/

/-- A Go string, as its byte sequence. -/
abbrev Tok := List Nat

/-- Bytes of a (ASCII) string literal, for readable concrete inputs. -/
def strBytes (s : String) : Tok := s.data.map Char.toNat

/-- `strings.Compare(a, b) < 0`: byte-wise lexicographic order,
a proper prefix is smaller. -/
def pathLt : Tok → Tok → Bool
  | [], [] => false
  | [], _ :: _ => true
  | _ :: _, [] => false
  | a :: as, b :: bs => if a < b then true else if b < a then false else pathLt as bs

/-- The ASCII whitespace bytes trimmed by `strings.TrimSpace`. -/
def isSpaceByte (b : Nat) : Bool :=
  b == 9 || b == 10 || b == 11 || b == 12 || b == 13 || b == 32

/-- Drop leading whitespace bytes. -/
def trimLeftSpace : Tok → Tok
  | [] => []
  | b :: r => if isSpaceByte b then trimLeftSpace r else b :: r

/-- Drop trailing whitespace bytes. -/
def trimRightSpace (t : Tok) : Tok := (trimLeftSpace t.reverse).reverse

/-- `strings.TrimSpace` on ASCII byte strings. -/
def trimSpace (t : Tok) : Tok := trimRightSpace (trimLeftSpace t)

/-- `strings.HasPrefix(arg, "-")`. -/
def startsDash : Tok → Bool
  | b :: _ => b == 45
  | [] => false

/-- `command` from command.go: `Path`, `Proc` (opaque procedure, kept as an
identifier), `Brief`, `Alias`, and the insertion-order tag `order`. -/
structure CmdE where
  Path : Tok
  proc : Nat
  Brief : Tok
  AliasB : Bool
  order : Nat
  deriving DecidableEq, Repr

/-- The btree of commands, abstracted as its strictly ascending element list
(keyed by `Path` under `pathLt`, as installed by `command.Less`). -/
def sortedReg (reg : List CmdE) : Prop :=
  List.Pairwise (fun a b => pathLt a.Path b.Path = true) reg

instance (reg : List CmdE) : Decidable (sortedReg reg) := by
  unfold sortedReg; infer_instance

/-- Membership of a path in the scan window `[pfx, pfx + "\xFF")` used by
`commands.scan` (btree `AscendRange` is inclusive below, exclusive above). -/
def inScanRange (pfx p : Tok) : Bool :=
  !(pathLt p pfx) && pathLt p (pfx ++ [255])

/-- `commands.scan` from command.go: ascend the ordered tree over
`[prefix, prefix + "\xFF")`, collecting every command in the window. -/
def commands.scan (reg : List CmdE) (pfx : Tok) : List CmdE :=
  reg.filter (fun c => inScanRange pfx c.Path)

/-- `commands.get` from command.go: exact lookup by path. -/
def commands.get (reg : List CmdE) (p : Tok) : Option CmdE :=
  reg.find? (fun c => c.Path == p)

/-- `desc`/`context` from cortana.go (the usage-text fields of `desc`
belong to the out-of-scope renderer and are not carried). -/
structure Ctx where
  name : Tok
  args : List Tok
  longest : Tok
  deriving DecidableEq, Repr

def emptyCtx : Ctx := ⟨[], [], []⟩

/-- The five states of `SearchCommand`'s token-classifying loop. -/
inductive STag
  | command | commandPre | optionFlag | optionArg | commandArg
  deriving DecidableEq, Repr

/-- The mutable locals of `SearchCommand`'s loop: current state, the path
built so far, the committed command, `cmdArgs` and `maybeArgs`. -/
structure SSt where
  tag : STag
  path : Tok
  cmd : Option CmdE
  cmdArgs : List Tok
  maybeArgs : List Tok
  deriving DecidableEq, Repr

/-- `strings.TrimSpace(path + " " + arg)`. -/
def extendPath (path arg : Tok) : Tok := trimSpace (path ++ 32 :: arg)

/-- The body of `SearchCommand`'s `for` loop (cortana.go lines 187-292),
one clause per `(state, token)` case; `none` is the early `return nil`
taken in `StateCommand` when the scan is empty and no command committed. -/
def searchLoop (reg : List CmdE) : SSt → List Tok → Option SSt
  | st, [] => some st
  | st, arg :: rest =>
    match st.tag with
    | .command =>
      if startsDash arg then
        searchLoop reg { st with tag := .optionFlag, cmdArgs := st.cmdArgs ++ [arg] } rest
      else
        let p := extendPath st.path arg
        match commands.scan reg p with
        | c :: _ =>
          if c.Path = p then
            searchLoop reg ⟨.command, p, some c, st.cmdArgs, []⟩ rest
          else
            searchLoop reg ⟨.commandPre, p, st.cmd, st.cmdArgs, st.maybeArgs ++ [arg]⟩ rest
        | [] =>
          match st.cmd with
          | some _ => searchLoop reg { st with tag := .commandArg, cmdArgs := st.cmdArgs ++ [arg] } rest
          | none => none
    | .commandPre =>
      if startsDash arg then
        searchLoop reg { st with tag := .optionFlag, cmdArgs := st.cmdArgs ++ [arg] } rest
      else
        let p := extendPath st.path arg
        match commands.scan reg p with
        | c :: _ =>
          if c.Path = p then
            searchLoop reg ⟨.command, p, some c, st.cmdArgs, []⟩ rest
          else
            searchLoop reg { st with path := p } rest
        | [] => searchLoop reg st rest
    | .optionFlag =>
      if startsDash arg then
        searchLoop reg { st with cmdArgs := st.cmdArgs ++ [arg] } rest
      else
        let p := extendPath st.path arg
        match commands.scan reg p with
        | c :: _ =>
          if c.Path = p then
            searchLoop reg ⟨.command, p, some c, st.cmdArgs, []⟩ rest
          else
            searchLoop reg ⟨.commandPre, p, st.cmd, st.cmdArgs, st.maybeArgs ++ [arg]⟩ rest
        | [] =>
          searchLoop reg { st with tag := .optionArg, cmdArgs := st.cmdArgs ++ [arg] } rest
    | .optionArg =>
      if startsDash arg then
        searchLoop reg { st with tag := .optionFlag, cmdArgs := st.cmdArgs ++ [arg] } rest
      else
        let p := extendPath st.path arg
        match commands.scan reg p with
        | c :: _ =>
          if c.Path = p then
            searchLoop reg ⟨.command, p, some c, st.cmdArgs, []⟩ rest
          else
            searchLoop reg ⟨.commandPre, p, st.cmd, st.cmdArgs, st.maybeArgs ++ [arg]⟩ rest
        | [] =>
          searchLoop reg { st with tag := .commandArg, cmdArgs := st.cmdArgs ++ [arg] } rest
    | .commandArg =>
      if startsDash arg then
        searchLoop reg { st with tag := .optionFlag, cmdArgs := st.cmdArgs ++ [arg] } rest
      else
        searchLoop reg { st with cmdArgs := st.cmdArgs ++ [arg] } rest

/-- `config` from cortana.go; the unmarshal capability and the file it reads
are collapsed to one external capability `um`, taking the path to the decoded
effect on the bound record (or absence/read failure of the file). -/
structure CfgRec (Rec : Type) where
  path : Tok
  requireExist : Bool
  um : Tok → Option (Option (Rec → Rec))
  -- `none` = file does not exist; `some none` = read or decode error;
  -- `some (some t)` = decodes successfully, updating the record by `t`.

/-- The `Cortana` commander struct (the fields `SearchCommand` and the
binding engine touch). `Rec` is the caller's target record shape. -/
structure Cortana (Rec : Type) where
  commands : List CmdE
  configs : List (CfgRec Rec)
  ctx : Ctx

/-- `SearchCommand` (cortana.go lines 170-305): resets the context, walks the
args, and installs the resolution context; returns the resolved command.
The early `return nil` leaves the freshly reset (empty) context in place. -/
def Cortana.SearchCommand (c : Cortana Rec) (args : List Tok) : Cortana Rec × Option CmdE :=
  let st0 : SSt := ⟨.command, [], commands.get c.commands [], [], []⟩
  match searchLoop c.commands st0 args with
  | none => ({ c with ctx := emptyCtx }, none)
  | some st =>
    let cmdArgs := st.cmdArgs ++ st.maybeArgs
    let name := match st.cmd with
      | some e => e.Path
      | none => st.path
    ({ c with ctx := ⟨name, cmdArgs, st.path⟩ }, st.cmd)

/-! ## Value coercion (`applyValue`, cortana.go lines 647-694) -/

/-- Digits of a base-10 numeral; `none` unless the token is one or more
ASCII digits. -/
def digitsToNat? : Tok → Option Nat
  | [] => none
  | ds => ds.foldl (fun acc b =>
      match acc with
      | none => none
      | some n => if 48 ≤ b ∧ b ≤ 57 then some (n * 10 + (b - 48)) else none)
      (some 0)

/-- `strconv.ParseInt(s, 10, 64)`: optional sign, decimal digits,
64-bit signed range. -/
def parseIntGo (t : Tok) : Option Int :=
  let core : Tok → Bool → Option Int := fun ds neg =>
    match digitsToNat? ds with
    | none => none
    | some n =>
      let v : Int := if neg then -(n : Int) else (n : Int)
      if -(2 ^ 63) ≤ v ∧ v ≤ 2 ^ 63 - 1 then some v else none
  match t with
  | 43 :: ds => core ds false
  | 45 :: ds => core ds true
  | ds => core ds false

/-- `strconv.ParseUint(s, 10, 64)`: decimal digits, no sign,
64-bit unsigned range. -/
def parseUintGo (t : Tok) : Option Nat :=
  match digitsToNat? t with
  | none => none
  | some n => if n ≤ 2 ^ 64 - 1 then some n else none

/-- `strconv.ParseBool`: accepts exactly 1, t, T, TRUE, true, True and
0, f, F, FALSE, false, False. -/
def parseBoolGo (t : Tok) : Option Bool :=
  if t = strBytes "1" ∨ t = strBytes "t" ∨ t = strBytes "T" ∨
     t = strBytes "TRUE" ∨ t = strBytes "true" ∨ t = strBytes "True" then some true
  else if t = strBytes "0" ∨ t = strBytes "f" ∨ t = strBytes "F" ∨
     t = strBytes "FALSE" ∨ t = strBytes "false" ∨ t = strBytes "False" then some false
  else none

/-- A typed destination slot's current scalar value (the `reflect.Value`
kinds `applyValue` switches on). Float values are kept as the token that
produced them: no claim depends on float arithmetic, only on whether the
external `strconv.ParseFloat` accepts a token (a capability in `Params`). -/
inductive Scalar
  | strV (s : Tok)
  | intV (i : Int)
  | durV (i : Int)
  | uintV (u : Nat)
  | floatV (t : Tok)
  | boolV (b : Bool)
  deriving DecidableEq, Repr

/-- A destination slot: a scalar, or an appendable sequence of scalars
(`zero` is the element type's zero value, used for fresh elements; a nil
slice and an empty slice are identified). -/
inductive Value
  | scalar (v : Scalar)
  | slice (zero : Scalar) (elems : List Scalar)
  deriving DecidableEq, Repr

def Value.isBool : Value → Bool
  | .scalar (.boolV _) => true
  | _ => false

def Value.isSlice : Value → Bool
  | .slice _ _ => true
  | _ => false

/-- External capabilities and the predefined names of the binding engine:
the `time.ParseDuration` and `strconv.ParseFloat` collaborators (spec 4.4:
the duration grammar and standard decimal/scientific floats are external
parse rules), `reflect`'s zero test for floats, the predefined help and
config flag names, and the ignore-unknown parse option. -/
structure Params where
  parseDurX : Tok → Option Int
  parseFloatX : Tok → Option Tok
  floatIsZero : Tok → Bool
  helpLong : Tok
  helpShort : Tok
  cfgLong : Tok
  cfgShort : Tok
  ignoreUnknown : Bool

/-- `applyValue` on one scalar slot (the non-slice cases of the switch). -/
def applyScalar (P : Params) (v : Scalar) (s : Tok) : Option Scalar :=
  match v with
  | .strV _ => some (.strV s)
  | .intV _ => (parseIntGo s).map .intV
  | .durV _ => (P.parseDurX s).map .durV
  | .uintV _ => (parseUintGo s).map .uintV
  | .floatV _ => (P.parseFloatX s).map .floatV
  | .boolV _ => (parseBoolGo s).map .boolV

/-- `applyValue` (cortana.go lines 647-694): an empty token is a no-op;
otherwise coerce into the slot, or append a freshly coerced element for
sequence slots. `none` is the coercion error. -/
def applyValue (P : Params) (v : Value) (s : Tok) : Option Value :=
  if s = [] then some v
  else
    match v with
    | .scalar sc => (applyScalar P sc s).map .scalar
    | .slice z es => (applyScalar P z s).map fun e => .slice z (es ++ [e])

/-- `reflect.Value.IsZero` on the modelled kinds. -/
def scalarIsZero (P : Params) : Scalar → Bool
  | .strV s => s == []
  | .intV i => i == 0
  | .durV i => i == 0
  | .uintV u => u == 0
  | .floatV t => P.floatIsZero t
  | .boolV b => b == false

def valueIsZero (P : Params) : Value → Bool
  | .scalar s => scalarIsZero P s
  | .slice _ es => es.isEmpty

/-- `flag` from cortana.go (`nonflag` is the same shape); `rv` is the
destination slot, carried by value. The usage-text `description` belongs to
the out-of-scope renderer and is not carried. -/
structure FlagB where
  name : Tok
  long : Tok
  short : Tok
  required : Bool
  defaultValue : Tok
  rv : Value
  deriving DecidableEq, Repr

/-- `buildArgsIndex` followed by `flags[key]` (cortana.go lines 614-625):
empty long/short names are skipped, and for colliding names the flag
registered last wins; the result is that flag's index in the list. -/
def lookupFlagIdx (flags : List FlagB) (key : Tok) : Option Nat :=
  let hit : FlagB → Bool := fun f =>
    (f.long == key && !(f.long == ([] : Tok))) || (f.short == key && !(f.short == ([] : Tok)))
  match flags.reverse.findIdx? hit with
  | none => none
  | some k => some (flags.length - 1 - k)

/-- `strings.Index(arg, "=") > 0` splitting of a token into key, value and
the explicit-empty-value marker (cortana.go lines 769-780). -/
def splitKV (t : Tok) : Tok × Tok × Bool :=
  match t.findIdx? (fun b => b == 61) with
  | some j => if 0 < j then (t.take j, t.drop (j + 1), t.drop (j + 1) == ([] : Tok)) else (t, [], false)
  | none => (t, [], false)

/-! ## The argument pass (`unmarshalArgs`, cortana.go lines 745-838) -/

/-- The target record a config/env unmarshaler decodes into: the flag and
nonflag destinations of the current `Parse` call. -/
abbrev BindRec := List FlagB × List FlagB

/-- `buildArgsIndex` lookup returning the winning flag and its position. -/
def lookupFlag (flags : List FlagB) (key : Tok) : Option (Nat × FlagB) :=
  let hit : FlagB → Bool := fun f =>
    (f.long == key && !(f.long == ([] : Tok))) || (f.short == key && !(f.short == ([] : Tok)))
  match flags.reverse.findIdx? hit, flags.reverse.find? hit with
  | some k, some f => some (flags.length - 1 - k, f)
  | _, _ => none

/-- Observable events of one binding pass: a configuration file decoded
into the target, a flag value applied, a positional value applied. -/
inductive Ev
  | decoded (path : Tok)
  | appliedF (key v : Tok)
  | appliedPos (v : Tok)
  deriving DecidableEq, Repr

/-- The fatal conditions `unmarshalArgs` reports. -/
inductive Fmsg
  | requiresArg (k : Tok)
  | unknownArg (t : Tok)
  | coerce (t : Tok)
  deriving DecidableEq, Repr

/-- Outcome of the `unmarshalArgs` token walk. `doneA` finishes the pass
(`c.ctx.args` becomes `unknown`); `abortA` is the help-flag abort;
`restartA` is the config-path `panic("restart")`, carrying the mutated
flags/nonflags/configs, the rewritten argument list, and the discovered
path value; `oobTok` is the Go index-out-of-range panic on `next[0]` for an
empty token; `oobCfgs` the panic on `c.configs[len(c.configs)-1]` with no
configs. -/
inductive AOut
  | doneA (flags nonflags : List FlagB) (unknown : List Tok) (tr : List Ev)
  | abortA (tr : List Ev)
  | restartA (flags nonflags : List FlagB) (cfgs : List (CfgRec BindRec))
      (newArgs : List Tok) (v : Tok) (tr : List Ev)
  | fatalA (m : Fmsg) (tr : List Ev)
  | oobTok (tr : List Ev)
  | oobCfgs (tr : List Ev)

/-- Directive produced by the key/value part of one `unmarshalArgs`
iteration: stop with an outcome, continue consuming the current token, or
continue consuming the current token together with its following value. -/
inductive KeyRes
  | halt (o : AOut)
  | cont (flags : List FlagB) (unknown : List Tok) (tr : List Ev)
  | cont2 (flags : List FlagB) (tr : List Ev)

/-- The key/value part of one `unmarshalArgs` iteration (cortana.go lines
769-835): split the token, handle the configuration-path flag (restart,
out-of-range panics, missing-argument fatal), then the ordinary flag lookup
and value application, or the unknown-token policy. `nfAll` is
`parsing.nonflags` (for the restart state), `done` the walked prefix in
reverse (to rebuild the arg list on restart). -/
def processKey (P : Params) (flags nfAll : List FlagB) (cfgs : List (CfgRec BindRec))
    (unknown done : List Tok) (tr : List Ev) (t : Tok) (rest : List Tok) : KeyRes :=
  let kv := splitKV t
  let key := kv.1
  let value := kv.2.1
  let emptyV := kv.2.2
  if key = P.cfgLong ∨ key = P.cfgShort then
    match cfgs.getLast? with
    | none => .halt (.oobCfgs tr)
    | some last =>
      if value ≠ [] then
        .halt (.restartA flags nfAll
          (cfgs.dropLast ++ [{ last with path := value, requireExist := true }])
          (done.reverse ++ rest) value tr)
      else
        match rest with
        | next :: rest' =>
          match next with
          | [] => .halt (.oobTok tr)
          | b :: _ =>
            if b ≠ 45 then
              .halt (.restartA flags nfAll
                (cfgs.dropLast ++ [{ last with path := next, requireExist := true }])
                (done.reverse ++ rest') next tr)
            else .halt (.fatalA (.requiresArg key) tr)
        | [] => .halt (.fatalA (.requiresArg key) tr)
  else
    match lookupFlag flags key with
    | some jf =>
      let j := jf.1
      let f := jf.2
      if emptyV then
        .cont flags unknown tr
      else if value ≠ [] then
        match applyValue P f.rv value with
        | none => .halt (.fatalA (.coerce value) tr)
        | some v' => .cont (flags.set j { f with rv := v' }) unknown (tr ++ [.appliedF key value])
      else if f.rv.isBool then
        match applyValue P f.rv (strBytes "true") with
        | none => .halt (.fatalA (.coerce (strBytes "true")) tr)
        | some v' =>
          .cont (flags.set j { f with rv := v' }) unknown (tr ++ [.appliedF key (strBytes "true")])
      else
        match rest with
        | next :: _ =>
          match next with
          | [] => .halt (.oobTok tr)
          | b :: _ =>
            if b ≠ 45 ∨ next = strBytes "--" then
              match applyValue P f.rv next with
              | none => .halt (.fatalA (.coerce next) tr)
              | some v' => .cont2 (flags.set j { f with rv := v' }) (tr ++ [.appliedF key next])
            else .halt (.fatalA (.requiresArg key) tr)
        | [] => .halt (.fatalA (.requiresArg key) tr)
    | none =>
      if P.ignoreUnknown then .cont flags (unknown ++ [t]) tr
      else .halt (.fatalA (.unknownArg t) tr)

/-- One iteration of `unmarshalArgs`'s `for` loop (cortana.go lines
751-836) on token `t`: the help-flag abort, then positional consumption for
a non-flag token while nonflags remain, otherwise the key/value processing
of `processKey`. `cont1` consumes `t`; `cont2c` consumes `t` and the token
after it. -/
inductive StepOut
  | halt (o : AOut)
  | cont1 (flags nfAcc nfs : List FlagB) (unknown : List Tok) (tr : List Ev)
  | cont2c (flags nfAcc nfs : List FlagB) (tr : List Ev)

def uStep (P : Params) (flags nfAcc nfs : List FlagB) (cfgs : List (CfgRec BindRec))
    (unknown done : List Tok) (tr : List Ev) (t : Tok) (rest : List Tok) : StepOut :=
  if t = P.helpLong ∨ t = P.helpShort then .halt (.abortA tr)
  else
    match nfs with
    | nf :: nfs' =>
      if startsDash t then
        match processKey P flags (nfAcc.reverse ++ nf :: nfs') cfgs unknown done tr t rest with
        | .halt o => .halt o
        | .cont flags' unknown' tr' => .cont1 flags' nfAcc (nf :: nfs') unknown' tr'
        | .cont2 flags' tr' => .cont2c flags' nfAcc (nf :: nfs') tr'
      else
        match applyValue P nf.rv t with
        | none => .halt (.fatalA (.coerce t) tr)
        | some v' =>
          if nf.rv.isSlice then
            .cont1 flags nfAcc ({ nf with rv := v' } :: nfs') unknown (tr ++ [.appliedPos t])
          else
            .cont1 flags ({ nf with rv := v' } :: nfAcc) nfs' unknown (tr ++ [.appliedPos t])
    | [] =>
      match processKey P flags nfAcc.reverse cfgs unknown done tr t rest with
      | .halt o => .halt o
      | .cont flags' unknown' tr' => .cont1 flags' nfAcc [] unknown' tr'
      | .cont2 flags' tr' => .cont2c flags' nfAcc [] tr'

/-- The `for` loop of `unmarshalArgs` (cortana.go lines 751-836).
`flags` is the full flag list (updated in place through `rv` pointers);
`nfAcc`/`nfs` are the consumed and pending nonflags (`nonflags = nonflags[1:]`
pops into `nfAcc`, values still shared with `parsing.nonflags`); `done`
holds already-walked tokens in reverse, so a restart can rebuild
`append(args[0:i], args[i+1:]...)`. A `cont2c` directive always comes with
a non-empty remainder, so its `[]` fallback (the same missing-argument
fatal the source reports there) is unreachable. -/
def unmarshalArgsLoop (P : Params) (flags nfAcc nfs : List FlagB)
    (cfgs : List (CfgRec BindRec)) (unknown done : List Tok) (tr : List Ev)
    (args : List Tok) : AOut :=
  match args with
  | [] => .doneA flags (nfAcc.reverse ++ nfs) unknown tr
  | t :: rest =>
    match uStep P flags nfAcc nfs cfgs unknown done tr t rest with
    | .halt o => o
    | .cont1 flags' nfAcc' nfs' unknown' tr' =>
      unmarshalArgsLoop P flags' nfAcc' nfs' cfgs unknown' (t :: done) tr' rest
    | .cont2c flags' nfAcc' nfs' tr' =>
      match rest with
      | v :: rest' =>
        unmarshalArgsLoop P flags' nfAcc' nfs' cfgs unknown (v :: t :: done) tr' rest'
      | [] => .fatalA (.requiresArg (splitKV t).1) tr
termination_by structural args

/-! ## Config overlay, requiredness check, and the Parse restart loop -/

/-- `unmarshalConfigs` (cortana.go lines 840-859): read and decode each
config source in order; a missing file is tolerated unless `requireExist`;
a read or decode failure is fatal (`none`). Returns the updated record and
the decode events in order. -/
def unmarshalConfigs : List (CfgRec BindRec) → BindRec → Option (BindRec × List Ev)
  | [], r => some (r, [])
  | cfg :: rest, r =>
    match cfg.um cfg.path with
    | none => if cfg.requireExist then none else unmarshalConfigs rest r
    | some none => none
    | some (some tf) =>
      match unmarshalConfigs rest (tf r) with
      | none => none
      | some (r', evs) => some (r', .decoded cfg.path :: evs)

/-- `i` of `checkRequires` (cortana.go lines 700-706): the number of leading
non-flag tokens. -/
def countLeadingNonDash : List Tok → Nat
  | [] => 0
  | t :: r => if startsDash t then 0 else countLeadingNonDash r + 1

/-- The conditions `checkRequires` reports fatally. -/
inductive ReqErr
  | nfMissing (long : Tok)
  | flagMissing (nm : Tok)
  deriving DecidableEq, Repr

/-- The positional half of `checkRequires` (cortana.go lines 700-714):
the first required-but-zero nonflag beyond the supplied leading non-flag
tokens. -/
def checkNonflags (P : Params) (args : List Tok) (nonflags : List FlagB) : Option FlagB :=
  let i := countLeadingNonDash args
  if i < nonflags.length then
    (nonflags.drop i).find? (fun nf => nf.required && valueIsZero P nf.rv)
  else none

/-- The flag half of `checkRequires` (cortana.go lines 716-741): the first
required flag whose long and short names are absent from `args` and whose
destination is zero (a flag whose two names are both the sentinel `-` never
reports, as in the source — such a flag is not produced by
`parseCortanaTags`). -/
def checkFlagsMissing (P : Params) (args : List Tok) (flags : List FlagB) : Option FlagB :=
  flags.find? (fun f => f.required && !(args.contains f.long) &&
    !(args.contains f.short) && valueIsZero P f.rv &&
    (!(f.long == strBytes "-") || !(f.short == strBytes "-")))

/-- `checkRequires` (cortana.go lines 695-742) under the default
exit-on-error policy: the first violation is reported. Note `args` here is
`c.ctx.args` as `unmarshalArgs` left it (the unknown-token leftovers),
not the raw argument vector. -/
def checkRequires (P : Params) (args : List Tok) (flags nonflags : List FlagB) : Option ReqErr :=
  match checkNonflags P args nonflags with
  | some nf => some (.nfMissing nf.long)
  | none =>
    match checkFlagsMissing P args flags with
    | some f => some (.flagMissing (if f.long ≠ strBytes "-" then f.long else f.short))
    | none => none

/-- The binding-engine state threaded through `Parse`'s restart loop. -/
structure PState where
  args : List Tok
  flags : List FlagB
  nonflags : List FlagB
  cfgs : List (CfgRec BindRec)
  envs : List (BindRec → BindRec)

/-- Outcome of one body iteration of `Parse`'s loop (cortana.go 375-393):
config overlay, env overlay, argument walk, requiredness check; `restartP`
is the caught `panic("restart")` with the mutated state. -/
inductive POut
  | doneP (flags nonflags : List FlagB) (ctxArgs : List Tok) (tr : List Ev)
  | abortP (tr : List Ev)
  | fatalP (tr : List Ev)
  | oobP (tr : List Ev)
  | restartP (st : PState) (v : Tok) (tr : List Ev)

/-- One pass of `Parse`'s loop body. -/
def passF (P : Params) (st : PState) : POut :=
  match unmarshalConfigs st.cfgs (st.flags, st.nonflags) with
  | none => .fatalP []
  | some (r₁, tr₁) =>
    let r₂ := st.envs.foldl (fun r tf => tf r) r₁
    match unmarshalArgsLoop P r₂.1 [] r₂.2 st.cfgs [] [] [] st.args with
    | .doneA flags₂ nfs₂ unknown tr₂ =>
      match checkRequires P unknown flags₂ nfs₂ with
      | some _ => .fatalP (tr₁ ++ tr₂)
      | none => .doneP flags₂ nfs₂ unknown (tr₁ ++ tr₂)
    | .abortA tr₂ => .abortP (tr₁ ++ tr₂)
    | .fatalA _ tr₂ => .fatalP (tr₁ ++ tr₂)
    | .oobTok tr₂ => .oobP (tr₁ ++ tr₂)
    | .oobCfgs tr₂ => .oobP (tr₁ ++ tr₂)
    | .restartA flags₂ nfs₂ cfgs₂ newArgs v tr₂ =>
      .restartP ⟨newArgs, flags₂, nfs₂, cfgs₂, st.envs⟩ v (tr₁ ++ tr₂)

/-- Final outcome of `Parse`'s restart loop; `fuelOutF` marks fuel
exhaustion of the model's bounded unrolling (shown unreachable). -/
inductive PFinal
  | doneF (flags nonflags : List FlagB) (ctxArgs : List Tok)
  | abortF
  | fatalF
  | oobF
  | fuelOutF

/-- `Parse`'s restart loop (cortana.go lines 375-393), unrolled on fuel,
accumulating the pass traces. -/
def parseLoop (P : Params) : Nat → PState → PFinal × List Ev
  | 0, _ => (.fuelOutF, [])
  | n + 1, st =>
    match passF P st with
    | .restartP st' _ tr => let r := parseLoop P n st'; (r.1, tr ++ r.2)
    | .doneP f nf u tr => (.doneF f nf u, tr)
    | .abortP tr => (.abortF, tr)
    | .fatalP tr => (.fatalF, tr)
    | .oobP tr => (.oobF, tr)

/-- Whether a token's key part names the configuration-path flag. -/
def isCfgTok (P : Params) (t : Tok) : Bool :=
  (splitKV t).1 == P.cfgLong || (splitKV t).1 == P.cfgShort

/-- The number of tokens whose key part names the configuration-path flag. -/
def countCfgToks (P : Params) (args : List Tok) : Nat :=
  args.countP (isCfgTok P)

/-- `AOut` with the restart's rewritten argument vector erased: everything
the walk decided except the position bookkeeping. -/
inductive AOutV
  | doneV (flags nonflags : List FlagB) (unknown : List Tok) (tr : List Ev)
  | abortV (tr : List Ev)
  | restartV (flags nonflags : List FlagB) (cfgs : List (CfgRec BindRec)) (v : Tok) (tr : List Ev)
  | fatalV (m : Fmsg) (tr : List Ev)
  | oobTokV (tr : List Ev)
  | oobCfgsV (tr : List Ev)

def AOut.view : AOut → AOutV
  | .doneA f nf u tr => .doneV f nf u tr
  | .abortA tr => .abortV tr
  | .restartA f nf cfgs _ v tr => .restartV f nf cfgs v tr
  | .fatalA m tr => .fatalV m tr
  | .oobTok tr => .oobTokV tr
  | .oobCfgs tr => .oobCfgsV tr

/-! ## Concrete instances used by witnesses and counterexamples -/

/-- Paths in the scan window have the prefix and do not continue with the
sentinel byte 0xFF (the corrected content of the prefix-scan contract). -/
def remOk (pfx p : Tok) : Bool :=
  match p.drop pfx.length with
  | [] => true
  | b :: _ => decide (b < 255)

/-- The example registry of the README: `say`, `say hello`,
`say hello cortana` (in ascending path order). -/
def regSay : List CmdE :=
  [⟨strBytes "say", 0, [], false, 2⟩,
   ⟨strBytes "say hello", 1, [], false, 1⟩,
   ⟨strBytes "say hello cortana", 2, [], false, 0⟩]

/-- A registry with only the two-word path `say hello`. -/
def reg3 : List CmdE := [⟨strBytes "say hello", 0, [], false, 0⟩]

/-- A registry whose single path is the byte 0xFF. -/
def regFF : List CmdE := [⟨[255], 0, [], false, 0⟩]

/-- External capabilities fixed for concrete runs: duration and float
parsing reject everything (no concrete run touches them), floats are never
zero, default help flag names, `--config`/`-c` as the config flag. -/
def P0 : Params :=
  ⟨fun _ => none, fun _ => none, fun _ => false,
   strBytes "--help", strBytes "-h", strBytes "--config", strBytes "-c", false⟩

/-- A config-source decode capability that exists and decodes as the
identity. -/
def umOkId : Tok → Option (Option (BindRec → BindRec)) := fun _ => some (some id)

/-- A config source with empty path, as appended by `collectFlags` when the
config flag is configured. -/
def cfg0 : CfgRec BindRec := ⟨[], false, umOkId⟩

/-- A string flag `--name, -n`. -/
def nameFlag : FlagB :=
  ⟨strBytes "Name", strBytes "--name", strBytes "-n", false, [], .scalar (.strV [])⟩

/-- A required integer flag `--age, -a`. -/
def ageFlag : FlagB :=
  ⟨strBytes "Age", strBytes "--age", strBytes "-a", true, [], .scalar (.intV 0)⟩

/-- Whether the argument walk ended in the out-of-range string index
(Go's panic on `next[0]` for an empty token). -/
def AOut.isOobTok : AOut → Bool
  | .oobTok _ => true
  | _ => false

/-- A key/value directive that is not the out-of-range string index. -/
def KeyRes.noOob : KeyRes → Bool
  | .halt o => !o.isOobTok
  | _ => true

/-- A step directive that is not the out-of-range string index. -/
def StepOut.noOob : StepOut → Bool
  | .halt o => !o.isOobTok
  | _ => true

/-- `KeyRes` with the restart's rewritten argument vector erased. -/
inductive KeyResV
  | haltV (o : AOutV)
  | contV (flags : List FlagB) (unknown : List Tok) (tr : List Ev)
  | cont2V (flags : List FlagB) (tr : List Ev)

def KeyRes.view : KeyRes → KeyResV
  | .halt o => .haltV o.view
  | .cont f u tr => .contV f u tr
  | .cont2 f tr => .cont2V f tr

/-- `StepOut` with the restart's rewritten argument vector erased. -/
inductive StepOutV
  | haltV (o : AOutV)
  | cont1V (flags nfAcc nfs : List FlagB) (unknown : List Tok) (tr : List Ev)
  | cont2cV (flags nfAcc nfs : List FlagB) (tr : List Ev)

def StepOut.view : StepOut → StepOutV
  | .halt o => .haltV o.view
  | .cont1 f na ns u tr => .cont1V f na ns u tr
  | .cont2c f na ns tr => .cont2cV f na ns tr

/-- A command-path word as `AddCommand` paths use them: a non-empty token
that is not flag-like and contains no whitespace byte. -/
def isWordP (w : Tok) : Prop :=
  w ≠ [] ∧ startsDash w = false ∧ ∀ b ∈ w, isSpaceByte b = false

instance (w : Tok) : Decidable (isWordP w) := by
  unfold isWordP; infer_instance

/-- The space-joined command path of a word sequence. -/
def joinWords : List Tok → Tok
  | [] => []
  | [w] => w
  | w :: ws => w ++ 32 :: joinWords ws

/-- Whether an event is a config-decode event (used to state that the
argument walk emits only application events). -/
def Ev.isDecoded : Ev → Bool
  | .decoded _ => true
  | _ => false

/-- The trace carried by a walk outcome. -/
def AOut.trOf : AOut → List Ev
  | .doneA _ _ _ tr => tr
  | .abortA tr => tr
  | .restartA _ _ _ _ _ tr => tr
  | .fatalA _ tr => tr
  | .oobTok tr => tr
  | .oobCfgs tr => tr

/-- The trace carried by a key/value directive. -/
def KeyRes.trOf : KeyRes → List Ev
  | .halt o => o.trOf
  | .cont _ _ tr => tr
  | .cont2 _ tr => tr

/-- The trace carried by a loop directive. -/
def StepOut.trOf : StepOut → List Ev
  | .halt o => o.trOf
  | .cont1 _ _ _ _ tr => tr
  | .cont2c _ _ _ tr => tr

/-- A one-flag one-config parse state passing `--config=x`. -/
def st4 : PState := ⟨[strBytes "--config=x"], [nameFlag], [], [cfg0], []⟩

/-- The state `st4` restarts into: the token consumed, the config source
repointed at `x` and marked must-exist. -/
def st4' : PState := ⟨[], [nameFlag], [], [⟨strBytes "x", true, umOkId⟩], []⟩

/-- Whether a key/value directive halts with a restart. -/
def KeyRes.isRestartHalt : KeyRes → Bool
  | .halt (.restartA _ _ _ _ _ _) => true
  | _ => false

/-! # Theorems -/

/-! ## Order lemmas for the registry scan -/

lemma pathLt_irrefl (p : Tok) : pathLt p p = false := by
  induction p with
  | nil => rfl
  | cons a as ih => simp [pathLt, ih]

lemma pathLt_append_self_left (p r : Tok) : pathLt (p ++ r) p = false := by
  induction p with
  | nil => cases r <;> rfl
  | cons a as ih => simp [pathLt, ih]

lemma pathLt_append_self_right (p : Tok) (b : Nat) (rs : Tok) :
    pathLt p (p ++ b :: rs) = true := by
  induction p with
  | nil => rfl
  | cons a as ih => simp [pathLt, ih]

lemma inScanRange_iff (pfx p : Tok) :
    inScanRange pfx p = (pfx.isPrefixOf p && remOk pfx p) := by
  induction pfx generalizing p with
  | nil =>
    cases p with
    | nil => rfl
    | cons b bs =>
      simp only [inScanRange, List.nil_append, List.isPrefixOf, remOk, List.drop_zero]
      rcases Nat.lt_trichotomy b 255 with h | h | h
      · simp [pathLt, h, Nat.not_lt.mpr (Nat.le_of_lt h)]
      · subst h
        cases bs <;> simp [pathLt]
      · simp [pathLt, Nat.not_lt.mpr (Nat.le_of_lt h), h, Nat.lt_asymm h]
  | cons a pf ih =>
    cases p with
    | nil => simp [inScanRange, pathLt, List.isPrefixOf]
    | cons b bs =>
      rcases Nat.lt_trichotomy a b with h | h | h
      · have hba : ¬ b < a := Nat.lt_asymm h
        simp only [inScanRange, pathLt, List.isPrefixOf]
        simp [h, hba]
        intro hab
        omega
      · subst h
        have := ih bs
        simp only [inScanRange, pathLt] at this ⊢
        simpa [List.isPrefixOf, remOk] using this
      · have hba : ¬ a < b := Nat.lt_asymm h
        simp only [inScanRange, pathLt, List.isPrefixOf]
        simp [h, hba]
        intro hab
        omega

lemma scan_head_exact (reg : List CmdE) (pfx : Tok) (e : CmdE)
    (hs : sortedReg reg) (he : e ∈ reg) (hp : e.Path = pfx) :
    (commands.scan reg pfx).head? = some e := by
  induction reg with
  | nil => cases he
  | cons c rest ih =>
    rcases List.mem_cons.mp he with rfl | hmem
    · have h1 : inScanRange pfx e.Path = true := by
        rw [hp]
        simp [inScanRange, pathLt_irrefl, pathLt_append_self_right]
      simp [commands.scan, List.filter_cons, h1]
    · have hlt : pathLt c.Path e.Path = true := (List.pairwise_cons.mp hs).1 e hmem
      have h0 : inScanRange pfx c.Path = false := by
        rw [hp] at hlt
        simp [inScanRange, hlt]
      have := ih (List.pairwise_cons.mp hs).2 hmem
      simpa [commands.scan, List.filter_cons, h0] using this

/-! ## C2: the prefix scan -/

/-- C2 (amended): for every prefix, the registry scan returns exactly the
registered entries whose path has the prefix as a byte prefix and does not
continue it with the byte 0xFF, in ascending lexicographic path order; an
entry registered at the prefix itself is the first element of the result. -/
theorem C2_scan_amended (reg : List CmdE) (pfx : Tok) (hs : sortedReg reg) :
    commands.scan reg pfx =
      reg.filter (fun c => pfx.isPrefixOf c.Path && remOk pfx c.Path) ∧
    List.Pairwise (fun a b => pathLt a.Path b.Path = true) (commands.scan reg pfx) ∧
    (∀ e ∈ reg, e.Path = pfx → (commands.scan reg pfx).head? = some e) := by
  refine ⟨?_, ?_, ?_⟩
  · unfold commands.scan
    exact List.filter_congr (fun c _ => inScanRange_iff pfx c.Path)
  · exact hs.sublist (List.filter_sublist reg)
  · exact fun e he hp => scan_head_exact reg pfx e hs he hp

/-- Witness for C2 on the README registry with prefix `say hello`. -/
theorem C2_scan_amended_witness :
    commands.scan regSay (strBytes "say hello") =
      regSay.filter (fun c =>
        (strBytes "say hello").isPrefixOf c.Path && remOk (strBytes "say hello") c.Path) ∧
    List.Pairwise (fun a b => pathLt a.Path b.Path = true)
      (commands.scan regSay (strBytes "say hello")) ∧
    (∀ e ∈ regSay, e.Path = strBytes "say hello" →
      (commands.scan regSay (strBytes "say hello")).head? = some e) :=
  C2_scan_amended regSay (strBytes "say hello") (by decide)

/-- C2 counterexample: a registered path may continue the prefix with the
byte 0xFF; the scan window `[prefix, prefix+"\xFF")` then misses it, so the
scan does not return every entry whose path has the prefix as a prefix. -/
theorem C2_scan_counterexample :
    sortedReg regFF ∧
    commands.scan regFF [] ≠ regFF.filter (fun c => ([] : Tok).isPrefixOf c.Path) := by
  decide

/-! ## C8: empty token is a no-op -/

/-- C8: on every typed destination slot (string, integer, unsigned, float,
boolean, duration, or sequence), applying the empty-string token succeeds
and leaves the destination unchanged. -/
theorem C8_empty_token_noop (P : Params) (v : Value) : applyValue P v [] = some v := by
  simp [applyValue]

/-! ## C10: SearchCommand does not touch the registry -/

/-- C10: `SearchCommand` leaves the command registry (and the config list)
of the commander unchanged for every argument vector; only the resolution
context is replaced. -/
theorem C10_search_frame {Rec : Type} (c : Cortana Rec) (args : List Tok) :
    ((c.SearchCommand args).1).commands = c.commands ∧
    ((c.SearchCommand args).1).configs = c.configs := by
  simp only [Cortana.SearchCommand]
  split <;> simp

/-! ## C3: empty scan without a committed command -/

/-- C3 (amended): in the committed-path state (`StateCommand`), a non-flag
token whose extended prefix has an empty scan, with no command committed,
makes `SearchCommand` return the typed nil outcome immediately. (In the
ambiguous-prefix state `StateCommandPrefix` the code instead continues
silently and drops the token, see the counterexample.) -/
theorem C3_unknown_in_command_state (reg : List CmdE) (st : SSt) (arg : Tok) (rest : List Tok)
    (htag : st.tag = .command) (hcmd : st.cmd = none)
    (hdash : startsDash arg = false)
    (hscan : commands.scan reg (extendPath st.path arg) = []) :
    searchLoop reg st (arg :: rest) = none := by
  simp [searchLoop, htag, hcmd, hdash, hscan]

/-- Witness for C3 (amended) on an empty registry. -/
theorem C3_unknown_in_command_state_witness :
    searchLoop ([] : List CmdE) ⟨.command, [], none, [], []⟩ [[120]] = none :=
  C3_unknown_in_command_state [] ⟨.command, [], none, [], []⟩ [120] [] rfl rfl rfl (by decide)

/-- C3 counterexample: with only `say hello` registered, the token `bye` is
processed in the ambiguous-path state with an empty scan and no committed
command, yet resolution does not fail: the token is silently dropped and a
later token still commits `say hello`. -/
theorem C3_counterexample :
    commands.scan reg3 (extendPath (strBytes "say") (strBytes "bye")) = [] ∧
    startsDash (strBytes "bye") = false ∧
    searchLoop reg3 ⟨.commandPre, strBytes "say", none, [], [strBytes "say"]⟩
        [strBytes "bye", strBytes "hello"] =
      some ⟨.command, strBytes "say hello", some ⟨strBytes "say hello", 0, [], false, 0⟩, [], []⟩ ∧
    ((⟨reg3, [], emptyCtx⟩ : Cortana Unit).SearchCommand
        [strBytes "say", strBytes "bye", strBytes "hello"]).2 =
      some ⟨strBytes "say hello", 0, [], false, 0⟩ := by
  decide

/-! ## C1: exact path match beats deeper partial matches -/

lemma pathLt_append_both (p r s : Tok) : pathLt (p ++ r) (p ++ s) = pathLt r s := by
  induction p with
  | nil => rfl
  | cons a as ih => simp [pathLt, ih]

lemma trimLeftSpace_all_ns (t : Tok) (h : ∀ b ∈ t, isSpaceByte b = false) :
    trimLeftSpace t = t := by
  cases t with
  | nil => rfl
  | cons b r => simp [trimLeftSpace, h b (by simp)]

lemma trimRightSpace_eq_self (l : Tok)
    (h : ∀ b, l.getLast? = some b → isSpaceByte b = false) :
    trimRightSpace l = l := by
  unfold trimRightSpace
  cases hl : l.reverse with
  | nil =>
    have : l = [] := by simpa using congrArg List.reverse hl
    simp [this, trimLeftSpace]
  | cons c cs =>
    have hc : l.getLast? = some c := by
      rw [← List.head?_reverse, hl]; rfl
    rw [trimLeftSpace, if_neg (by simp [h c hc]), ← hl, List.reverse_reverse]

lemma mem_of_getLast?_some {l : Tok} {b : Nat} (h : l.getLast? = some b) : b ∈ l := by
  obtain ⟨hne, heq⟩ := List.mem_getLast?_eq_getLast (Option.mem_def.mpr h)
  rw [heq]
  exact List.getLast_mem hne

lemma extendPath_nil (w : Tok) (hw : ∀ b ∈ w, isSpaceByte b = false) :
    extendPath [] w = w := by
  unfold extendPath trimSpace
  have h1 : trimLeftSpace ([] ++ 32 :: w) = w := by
    simp only [List.nil_append, trimLeftSpace]
    rw [if_pos (by decide)]
    exact trimLeftSpace_all_ns w hw
  rw [h1]
  exact trimRightSpace_eq_self w (fun b hb => hw b (mem_of_getLast?_some hb))

lemma extendPath_cons (a : Nat) (t w : Tok) (ha : isSpaceByte a = false)
    (hne : w ≠ []) (hw : ∀ b ∈ w, isSpaceByte b = false) :
    extendPath (a :: t) w = a :: (t ++ 32 :: w) := by
  unfold extendPath trimSpace
  have h1 : trimLeftSpace ((a :: t) ++ 32 :: w) = a :: (t ++ 32 :: w) := by
    simp only [List.cons_append, trimLeftSpace]
    rw [if_neg (by simp [ha])]
    rfl
  rw [h1]
  apply trimRightSpace_eq_self
  intro b hb
  apply hw
  rw [show a :: (t ++ 32 :: w) = (a :: t) ++ 32 :: w from rfl,
      List.getLast?_append_cons] at hb
  obtain ⟨c, cs, rfl⟩ := List.exists_cons_of_ne_nil hne
  rw [List.getLast?_cons_cons] at hb
  exact mem_of_getLast?_some hb

lemma pathLt_space_max (j : Tok) : pathLt (32 :: j) [255] = true := rfl

lemma searchLoop_words (reg : List CmdE) (e : CmdE) (hs : sortedReg reg) (he : e ∈ reg) :
    ∀ (ws : List Tok) (path : Tok) (tag : STag) (cmd : Option CmdE) (ca ma : List Tok),
      (tag = .command ∨ tag = .commandPre) →
      (∀ w ∈ ws, isWordP w) →
      ws ≠ [] →
      (∀ a, path.head? = some a → isSpaceByte a = false) →
      e.Path = (if path = [] then joinWords ws else path ++ 32 :: joinWords ws) →
      ∃ st', searchLoop reg ⟨tag, path, cmd, ca, ma⟩ ws = some st' ∧ st'.cmd = some e := by
  intro ws
  induction ws with
  | nil => intro path tag cmd ca ma _ _ hne _ _; exact absurd rfl hne
  | cons w ws' ih =>
    intro path tag cmd ca ma htag hws _ hph hrel
    obtain ⟨hwne, hwdash, hwns⟩ := hws w (List.mem_cons_self w ws')
    have hp : extendPath path w = (if path = [] then w else path ++ 32 :: w) := by
      by_cases hpe : path = []
      · rw [if_pos hpe, hpe]
        exact extendPath_nil w hwns
      · rw [if_neg hpe]
        obtain ⟨a, t, rfl⟩ := List.exists_cons_of_ne_nil hpe
        exact extendPath_cons a t w (hph a rfl) hwne hwns
    have hpne : extendPath path w ≠ [] := by
      rw [hp]
      by_cases hpe : path = []
      · simpa [hpe] using hwne
      · obtain ⟨a, t, rfl⟩ := List.exists_cons_of_ne_nil hpe
        simp
    have hrel' : e.Path = (if ws' = [] then extendPath path w
        else extendPath path w ++ 32 :: joinWords ws') := by
      rw [hp]
      by_cases hpe : path = [] <;> by_cases hw' : ws' = []
      · subst hw'
        simpa [hpe, joinWords] using hrel
      · obtain ⟨x, xs, rfl⟩ := List.exists_cons_of_ne_nil hw'
        simpa [hpe, joinWords] using hrel
      · subst hw'
        simpa [hpe, joinWords] using hrel
      · obtain ⟨x, xs, rfl⟩ := List.exists_cons_of_ne_nil hw'
        rw [if_neg hpe] at hrel
        simp only [if_neg hw', if_neg hpe, joinWords] at hrel ⊢
        simpa [List.append_assoc] using hrel
    have hph' : ∀ a, (extendPath path w).head? = some a → isSpaceByte a = false := by
      rw [hp]
      by_cases hpe : path = []
      · rw [if_pos hpe]
        intro a ha
        obtain ⟨b, bs, rfl⟩ := List.exists_cons_of_ne_nil hwne
        simp only [List.head?_cons, Option.some.injEq] at ha
        exact ha ▸ hwns b (List.mem_cons_self b bs)
      · rw [if_neg hpe]
        obtain ⟨a0, t, rfl⟩ := List.exists_cons_of_ne_nil hpe
        intro a ha
        simp only [List.cons_append, List.head?_cons, Option.some.injEq] at ha
        exact ha ▸ hph a0 rfl
    have hmem : e ∈ commands.scan reg (extendPath path w) := by
      apply List.mem_filter.mpr ⟨he, ?_⟩
      by_cases hw' : ws' = []
      · rw [if_pos hw'] at hrel'
        simp [inScanRange, hrel', pathLt_irrefl, pathLt_append_self_right]
      · rw [if_neg hw'] at hrel'
        simp [inScanRange, hrel', pathLt_append_self_left, pathLt_append_both,
          pathLt_space_max]
    obtain ⟨c, cs, hscan⟩ : ∃ c cs, commands.scan reg (extendPath path w) = c :: cs := by
      cases hsc : commands.scan reg (extendPath path w) with
      | nil => rw [hsc] at hmem; cases hmem
      | cons c cs => exact ⟨c, cs, rfl⟩
    have hwords' : ∀ v ∈ ws', isWordP v := fun v hv => hws v (List.mem_cons_of_mem w hv)
    rcases htag with rfl | rfl
    · by_cases hw' : ws' = []
      · subst hw'
        rw [if_pos rfl] at hrel'
        have hc : c = e := by
          have h2 := scan_head_exact reg (extendPath path w) e hs he hrel'
          rw [hscan] at h2
          exact Option.some.inj h2
        subst hc
        refine ⟨⟨.command, extendPath path w, some c, ca, []⟩, ?_, by simp [hrel'.symm]⟩
        simp only [searchLoop, hwdash, Bool.false_eq_true, if_neg]
        rw [hscan]
        simp [← hrel']
      · by_cases hcp : c.Path = extendPath path w
        · obtain ⟨st', hst', hcmd'⟩ := ih (extendPath path w) .command (some c) ca []
            (Or.inl rfl) hwords' hw' hph' (by rw [if_neg hpne]; rw [if_neg hw'] at hrel'; exact hrel')
          refine ⟨st', ?_, hcmd'⟩
          simp only [searchLoop, hwdash, Bool.false_eq_true, if_neg]
          rw [hscan]
          simpa [hcp] using hst'
        · obtain ⟨st', hst', hcmd'⟩ := ih (extendPath path w) .commandPre cmd ca (ma ++ [w])
            (Or.inr rfl) hwords' hw' hph' (by rw [if_neg hpne]; rw [if_neg hw'] at hrel'; exact hrel')
          refine ⟨st', ?_, hcmd'⟩
          simp only [searchLoop, hwdash, Bool.false_eq_true, if_neg]
          rw [hscan]
          simpa [hcp] using hst'
    · by_cases hw' : ws' = []
      · subst hw'
        rw [if_pos rfl] at hrel'
        have hc : c = e := by
          have h2 := scan_head_exact reg (extendPath path w) e hs he hrel'
          rw [hscan] at h2
          exact Option.some.inj h2
        subst hc
        refine ⟨⟨.command, extendPath path w, some c, ca, []⟩, ?_, by simp [hrel'.symm]⟩
        simp only [searchLoop, hwdash, Bool.false_eq_true, if_neg]
        rw [hscan]
        simp [← hrel']
      · by_cases hcp : c.Path = extendPath path w
        · obtain ⟨st', hst', hcmd'⟩ := ih (extendPath path w) .command (some c) ca []
            (Or.inl rfl) hwords' hw' hph' (by rw [if_neg hpne]; rw [if_neg hw'] at hrel'; exact hrel')
          refine ⟨st', ?_, hcmd'⟩
          simp only [searchLoop, hwdash, Bool.false_eq_true, if_neg]
          rw [hscan]
          simpa [hcp] using hst'
        · obtain ⟨st', hst', hcmd'⟩ := ih (extendPath path w) .commandPre cmd ca ma
            (Or.inr rfl) hwords' hw' hph' (by rw [if_neg hpne]; rw [if_neg hw'] at hrel'; exact hrel')
          refine ⟨st', ?_, hcmd'⟩
          simp only [searchLoop, hwdash, Bool.false_eq_true, if_neg]
          rw [hscan]
          simpa [hcp] using hst'

/-- C1: in every sorted registry containing both a path P (joined from
words `ws`) and a word-wise strict extension Q of it, `SearchCommand`
applied to exactly P's word sequence commits and returns the command
registered at P, without needing Q's remaining words: the exact-match entry
beats the deeper partial matches throughout the prefix walk. -/
theorem C1_exact_match_wins {Rec : Type} (c : Cortana Rec) (eP eQ : CmdE) (ws us : List Tok)
    (hs : sortedReg c.commands) (hP : eP ∈ c.commands) (hQ : eQ ∈ c.commands)
    (hPp : eP.Path = joinWords ws) (hQp : eQ.Path = joinWords (ws ++ us))
    (hws : ∀ w ∈ ws, isWordP w) (hus : ∀ w ∈ us, isWordP w)
    (hwsne : ws ≠ []) (husne : us ≠ []) :
    (c.SearchCommand ws).2 = some eP := by
  obtain ⟨st', hloop, hcmd⟩ := searchLoop_words c.commands eP hs hP ws [] .command
    (commands.get c.commands []) [] [] (Or.inl rfl) hws hwsne
    (fun a ha => by cases ha) (by rw [if_pos rfl]; exact hPp)
  simp only [Cortana.SearchCommand]
  rw [hloop]
  simpa using hcmd

/-- Witness for C1 on the README registry: resolving `say hello` returns
the `say hello` command although `say hello cortana` is also registered. -/
theorem C1_exact_match_wins_witness :
    ((⟨regSay, [], emptyCtx⟩ : Cortana Unit).SearchCommand
      [strBytes "say", strBytes "hello"]).2 =
    some ⟨strBytes "say hello", 1, [], false, 1⟩ :=
  C1_exact_match_wins ⟨regSay, [], emptyCtx⟩
    ⟨strBytes "say hello", 1, [], false, 1⟩
    ⟨strBytes "say hello cortana", 2, [], false, 0⟩
    [strBytes "say", strBytes "hello"] [strBytes "cortana"]
    (by decide) (by decide) (by decide) (by decide) (by decide)
    (by decide) (by decide) (by decide) (by decide)

/-! ## C9: string indexing on the token after a value-taking flag -/

lemma processKey_no_oob (P : Params) (flags nfAll : List FlagB)
    (cfgs : List (CfgRec BindRec)) (unknown done : List Tok) (tr : List Ev)
    (t : Tok) (rest : List Tok) (hne : ∀ x ∈ rest, x ≠ []) :
    (processKey P flags nfAll cfgs unknown done tr t rest).noOob = true := by
  simp only [processKey]
  split
  · split
    · rfl
    · split
      · rfl
      · split
        · split
          · exact absurd rfl (hne [] (List.mem_cons_self _ _))
          · split
            · rfl
            · rfl
        · rfl
  · split
    · split
      · rfl
      · split
        · split
          · rfl
          · rfl
        · split
          · split
            · rfl
            · rfl
          · split
            · split
              · exact absurd rfl (hne [] (List.mem_cons_self _ _))
              · split
                · split
                  · rfl
                  · rfl
                · rfl
            · rfl
    · split
      · rfl
      · rfl



/-! ## C9: string indexing on the token after a value-taking flag -/

lemma unmarshalArgsLoop_cons (P : Params) (flags nfAcc nfs : List FlagB)
    (cfgs : List (CfgRec BindRec)) (unknown done : List Tok) (tr : List Ev)
    (t : Tok) (rest : List Tok) :
    unmarshalArgsLoop P flags nfAcc nfs cfgs unknown done tr (t :: rest) =
      match uStep P flags nfAcc nfs cfgs unknown done tr t rest with
      | .halt o => o
      | .cont1 flags' nfAcc' nfs' unknown' tr' =>
        unmarshalArgsLoop P flags' nfAcc' nfs' cfgs unknown' (t :: done) tr' rest
      | .cont2c flags' nfAcc' nfs' tr' =>
        match rest with
        | v :: rest' =>
          unmarshalArgsLoop P flags' nfAcc' nfs' cfgs unknown (v :: t :: done) tr' rest'
        | [] => .fatalA (.requiresArg (splitKV t).1) tr := by
  conv_lhs => rw [unmarshalArgsLoop.eq_def]

lemma uStep_no_oob (P : Params) (flags nfAcc nfs : List FlagB)
    (cfgs : List (CfgRec BindRec)) (unknown done : List Tok) (tr : List Ev)
    (t : Tok) (rest : List Tok) (hne : ∀ x ∈ rest, x ≠ []) :
    (uStep P flags nfAcc nfs cfgs unknown done tr t rest).noOob = true := by
  simp only [uStep]
  split
  · rfl
  · split
    next nf nfs' =>
      split
      · split
        next o hpk =>
          have hno := processKey_no_oob P flags (nfAcc.reverse ++ nf :: nfs') cfgs unknown done tr t rest hne
          rw [hpk] at hno
          simpa [KeyRes.noOob, StepOut.noOob] using hno
        next => rfl
        next => rfl
      · split
        · rfl
        · split
          · rfl
          · rfl
    next =>
      split
      next o hpk =>
        have hno := processKey_no_oob P flags nfAcc.reverse cfgs unknown done tr t rest hne
        rw [hpk] at hno
        simpa [KeyRes.noOob, StepOut.noOob] using hno
      next => rfl
      next => rfl

lemma C9_aux (P : Params) :
    ∀ (n : Nat) (args : List Tok) (flags nfAcc nfs : List FlagB)
      (cfgs : List (CfgRec BindRec)) (unknown done : List Tok) (tr : List Ev),
      args.length ≤ n → (∀ t ∈ args, t ≠ []) →
      (unmarshalArgsLoop P flags nfAcc nfs cfgs unknown done tr args).isOobTok = false := by
  intro n
  induction n with
  | zero =>
    intro args flags nfAcc nfs cfgs unknown done tr hlen _
    have h0 : args = [] := List.length_eq_zero.mp (Nat.le_zero.mp hlen)
    subst h0
    rfl
  | succ n ih =>
    intro args flags nfAcc nfs cfgs unknown done tr hlen hne
    cases args with
    | nil => rfl
    | cons t rest =>
      have hlen' : rest.length ≤ n := by simpa using hlen
      have hne' : ∀ x ∈ rest, x ≠ [] := fun x hx => hne x (List.mem_cons_of_mem t hx)
      rw [unmarshalArgsLoop_cons]
      cases hstep : uStep P flags nfAcc nfs cfgs unknown done tr t rest with
      | halt o =>
        have hno := uStep_no_oob P flags nfAcc nfs cfgs unknown done tr t rest hne'
        rw [hstep] at hno
        simpa [StepOut.noOob] using hno
      | cont1 flags' nfAcc' nfs' unknown' tr' =>
        exact ih rest _ _ _ _ _ _ _ hlen' hne'
      | cont2c flags' nfAcc' nfs' tr' =>
        cases rest with
        | nil => rfl
        | cons v rest' =>
          refine ih rest' _ _ _ _ _ _ _ ?_ (fun x hx => hne' x (List.mem_cons_of_mem v hx))
          simp at hlen
          omega

/-- C9 (amended): when every token of the argument vector is non-empty, the
argument walk never performs the out-of-range first-character access on the
token following a value-taking flag or the configuration-path flag. (An
empty following token does make the access go out of bounds: see the
counterexample.) -/
theorem C9_inbounds_nonempty (P : Params) (args : List Tok)
    (flags nfAcc nfs : List FlagB) (cfgs : List (CfgRec BindRec))
    (unknown done : List Tok) (tr : List Ev)
    (hne : ∀ t ∈ args, t ≠ []) :
    (unmarshalArgsLoop P flags nfAcc nfs cfgs unknown done tr args).isOobTok = false :=
  C9_aux P args.length args flags nfAcc nfs cfgs unknown done tr le_rfl hne

/-- Witness for C9 (amended) on `--name x`. -/
theorem C9_inbounds_nonempty_witness :
    (unmarshalArgsLoop P0 [nameFlag] [] [] [] [] [] []
      [strBytes "--name", strBytes "x"]).isOobTok = false :=
  C9_inbounds_nonempty P0 [strBytes "--name", strBytes "x"] [nameFlag] [] [] [] [] [] []
    (by decide)

/-- C9 counterexample: with the string flag `--name` declared, the argument
vector `["--name", ""]` drives `unmarshalArgs` into the `next[0]` access on
the empty string — an index out of range (a Go runtime panic), so the claim
that the access stays in bounds even for an empty following token is false. -/
theorem C9_counterexample :
    unmarshalArgsLoop P0 [nameFlag] [] [] [] [] [] [] [strBytes "--name", []] =
      .oobTok [] := by
  rfl

/-! ## C7: inline and separate flag values -/

lemma processKey_view_done (P : Params) (flags nfAll : List FlagB)
    (cfgs : List (CfgRec BindRec)) (unknown : List Tok) (tr : List Ev)
    (t : Tok) (rest : List Tok) (done done' : List Tok) :
    (processKey P flags nfAll cfgs unknown done tr t rest).view =
    (processKey P flags nfAll cfgs unknown done' tr t rest).view := by
  simp only [processKey]
  split
  · split
    · rfl
    · split
      · rfl
      · split
        · split
          · rfl
          · split
            · rfl
            · rfl
        · rfl
  · split
    · split
      · rfl
      · split
        · split
          · rfl
          · rfl
        · split
          · split
            · rfl
            · rfl
          · split
            · split
              · rfl
              · split
                · split
                  · rfl
                  · rfl
                · rfl
            · rfl
    · split
      · rfl
      · rfl

lemma KeyRes_view_map (nfAcc nfs : List FlagB) (k k' : KeyRes) (h : k.view = k'.view) :
    (match k with
     | .halt o => StepOut.halt o
     | .cont f u tr => StepOut.cont1 f nfAcc nfs u tr
     | .cont2 f tr => StepOut.cont2c f nfAcc nfs tr).view =
    (match k' with
     | .halt o => StepOut.halt o
     | .cont f u tr => StepOut.cont1 f nfAcc nfs u tr
     | .cont2 f tr => StepOut.cont2c f nfAcc nfs tr).view := by
  cases k <;> cases k' <;> simp_all [KeyRes.view, StepOut.view]

lemma uStep_view_done (P : Params) (flags nfAcc nfs : List FlagB)
    (cfgs : List (CfgRec BindRec)) (unknown : List Tok) (tr : List Ev)
    (t : Tok) (rest : List Tok) (done done' : List Tok) :
    (uStep P flags nfAcc nfs cfgs unknown done tr t rest).view =
    (uStep P flags nfAcc nfs cfgs unknown done' tr t rest).view := by
  simp only [uStep]
  split
  · rfl
  · split
    next nf nfs' =>
      split
      · exact KeyRes_view_map nfAcc (nf :: nfs') _ _
          (processKey_view_done P flags (nfAcc.reverse ++ nf :: nfs') cfgs unknown tr t rest done done')
      · split
        · rfl
        · split
          · rfl
          · rfl
    next =>
      exact KeyRes_view_map nfAcc [] _ _
        (processKey_view_done P flags nfAcc.reverse cfgs unknown tr t rest done done')

lemma loop_view_done (P : Params) :
    ∀ (n : Nat) (args : List Tok) (flags nfAcc nfs : List FlagB)
      (cfgs : List (CfgRec BindRec)) (unknown done done' : List Tok) (tr : List Ev),
      args.length ≤ n →
      (unmarshalArgsLoop P flags nfAcc nfs cfgs unknown done tr args).view =
      (unmarshalArgsLoop P flags nfAcc nfs cfgs unknown done' tr args).view := by
  intro n
  induction n with
  | zero =>
    intro args flags nfAcc nfs cfgs unknown done done' tr hlen
    have h0 : args = [] := List.length_eq_zero.mp (Nat.le_zero.mp hlen)
    subst h0
    rfl
  | succ n ih =>
    intro args flags nfAcc nfs cfgs unknown done done' tr hlen
    cases args with
    | nil => rfl
    | cons t rest =>
      have hlen' : rest.length ≤ n := by simpa using hlen
      rw [unmarshalArgsLoop_cons, unmarshalArgsLoop_cons]
      have h := uStep_view_done P flags nfAcc nfs cfgs unknown tr t rest done done'
      cases hk : uStep P flags nfAcc nfs cfgs unknown done tr t rest <;>
        cases hk' : uStep P flags nfAcc nfs cfgs unknown done' tr t rest <;>
          rw [hk, hk'] at h
      case halt.halt o o' =>
        simp only [StepOut.view, StepOutV.haltV.injEq] at h
        exact h
      case halt.cont1 => simp [StepOut.view] at h
      case halt.cont2c => simp [StepOut.view] at h
      case cont1.halt => simp [StepOut.view] at h
      case cont1.cont1 f na ns u tr1 f' na' ns' u' tr1' =>
        simp only [StepOut.view, StepOutV.cont1V.injEq] at h
        obtain ⟨rfl, rfl, rfl, rfl, rfl⟩ := h
        exact ih rest _ _ _ _ _ _ _ _ hlen'
      case cont1.cont2c => simp [StepOut.view] at h
      case cont2c.halt => simp [StepOut.view] at h
      case cont2c.cont1 => simp [StepOut.view] at h
      case cont2c.cont2c f na ns tr1 f' na' ns' tr1' =>
        simp only [StepOut.view, StepOutV.cont2cV.injEq] at h
        obtain ⟨rfl, rfl, rfl, rfl⟩ := h
        cases rest with
        | nil => rfl
        | cons v rest' =>
          refine ih rest' _ _ _ _ _ _ _ _ ?_
          simp at hlen
          omega

lemma findIdx_eq_append (key v : Tok) (hkeq : ∀ b ∈ key, b ≠ 61) :
    (key ++ 61 :: v).findIdx? (fun b => b == 61) = some key.length := by
  induction key with
  | nil => simp [List.findIdx?_cons]
  | cons a as ih =>
    rw [List.cons_append, List.findIdx?_cons]
    have ha : (a == 61) = false := by
      simpa using hkeq a (List.mem_cons_self _ _)
    simp [ha, ih (fun b hb => hkeq b (List.mem_cons_of_mem a hb))]

lemma splitKV_inline (key v : Tok) (hk : key ≠ []) (hkeq : ∀ b ∈ key, b ≠ 61) :
    splitKV (key ++ 61 :: v) = (key, v, v == []) := by
  rw [splitKV, findIdx_eq_append key v hkeq]
  dsimp only
  rw [if_pos (List.length_pos.mpr hk)]
  have hdrop : (key ++ 61 :: v).drop (key.length + 1) = v := by
    have h1 : (key ++ 61 :: v).drop key.length = 61 :: v := List.drop_left key (61 :: v)
    have h2 : (key ++ 61 :: v).drop (key.length + 1) =
        ((key ++ 61 :: v).drop key.length).drop 1 := by
      rw [List.drop_drop]
    rw [h2, h1]
    rfl
  rw [List.take_left, hdrop]

lemma splitKV_noeq (key : Tok) (hkeq : ∀ b ∈ key, b ≠ 61) :
    splitKV key = (key, [], false) := by
  have hidx : key.findIdx? (fun b => b == 61) = none := by
    rw [List.findIdx?_eq_none_iff]
    intro x hx
    simpa using hkeq x hx
  simp [splitKV, hidx]

lemma uStep_key (P : Params) (flags nfAcc nfs : List FlagB)
    (cfgs : List (CfgRec BindRec)) (unknown done : List Tok) (tr : List Ev)
    (t : Tok) (rest : List Tok)
    (hh1 : t ≠ P.helpLong) (hh2 : t ≠ P.helpShort) (hdash : startsDash t = true) :
    uStep P flags nfAcc nfs cfgs unknown done tr t rest =
      match processKey P flags (nfAcc.reverse ++ nfs) cfgs unknown done tr t rest with
      | .halt o => .halt o
      | .cont flags' unknown' tr' => .cont1 flags' nfAcc nfs unknown' tr'
      | .cont2 flags' tr' => .cont2c flags' nfAcc nfs tr' := by
  simp only [uStep]
  rw [if_neg (not_or.mpr ⟨hh1, hh2⟩)]
  cases nfs with
  | nil => simp
  | cons nf nfs' =>
    dsimp only
    rw [if_pos hdash]

lemma processKey_inline (P : Params) (flags nfAll : List FlagB)
    (cfgs : List (CfgRec BindRec)) (unknown done : List Tok) (tr : List Ev)
    (key v : Tok) (rest : List Tok) (j : Nat) (f : FlagB)
    (hk : key ≠ []) (hkeq : ∀ b ∈ key, b ≠ 61)
    (h5 : key ≠ P.cfgLong) (h6 : key ≠ P.cfgShort)
    (hlk : lookupFlag flags key = some (j, f))
    (hv : v ≠ []) :
    processKey P flags nfAll cfgs unknown done tr (key ++ 61 :: v) rest =
      match applyValue P f.rv v with
      | none => .halt (.fatalA (.coerce v) tr)
      | some v' => .cont (flags.set j { f with rv := v' }) unknown (tr ++ [.appliedF key v]) := by
  have hve : (v == ([] : Tok)) = false := by simpa using hv
  simp only [processKey, splitKV_inline key v hk hkeq, hlk]
  rw [if_neg (not_or.mpr ⟨h5, h6⟩)]
  simp [hve, hv]

lemma processKey_following (P : Params) (flags nfAll : List FlagB)
    (cfgs : List (CfgRec BindRec)) (unknown done : List Tok) (tr : List Ev)
    (key v : Tok) (rest : List Tok) (j : Nat) (f : FlagB)
    (hkeq : ∀ b ∈ key, b ≠ 61)
    (h5 : key ≠ P.cfgLong) (h6 : key ≠ P.cfgShort)
    (hlk : lookupFlag flags key = some (j, f))
    (hnb : f.rv.isBool = false)
    (hv : v ≠ [])
    (hvdash : v.head? ≠ some 45 ∨ v = strBytes "--") :
    processKey P flags nfAll cfgs unknown done tr key (v :: rest) =
      match applyValue P f.rv v with
      | none => .halt (.fatalA (.coerce v) tr)
      | some v' => .cont2 (flags.set j { f with rv := v' }) (tr ++ [.appliedF key v]) := by
  obtain ⟨b, bs, rfl⟩ := List.exists_cons_of_ne_nil hv
  have hcond : b ≠ 45 ∨ (b :: bs) = strBytes "--" := by
    rcases hvdash with h | h
    · exact Or.inl (fun hb => h (by subst hb; rfl))
    · exact Or.inr h
  simp only [processKey, splitKV_noeq key hkeq, hlk]
  rw [if_neg (not_or.mpr ⟨h5, h6⟩)]
  simp [hnb, hcond]

/-- C7: for a declared non-boolean flag and a non-empty value that does not
look like another flag, binding the single token `--f=v` drives the
argument walk to exactly the same outcome as binding `--f` followed by `v`:
the same destination values, leftover tokens, trace and fatal conditions
(everything except the walked-position bookkeeping that only rebuilds the
argument vector on a config restart). -/
theorem C7_inline_vs_following (P : Params) (flags nfAcc nfs : List FlagB)
    (cfgs : List (CfgRec BindRec)) (unknown done : List Tok) (tr : List Ev)
    (key v : Tok) (rest : List Tok) (j : Nat) (f : FlagB)
    (hkdash : startsDash key = true)
    (hkeq : ∀ b ∈ key, b ≠ 61)
    (hlk : lookupFlag flags key = some (j, f))
    (hnb : f.rv.isBool = false)
    (hv : v ≠ [])
    (hvdash : v.head? ≠ some 45 ∨ v = strBytes "--")
    (h1 : key ++ 61 :: v ≠ P.helpLong) (h2 : key ++ 61 :: v ≠ P.helpShort)
    (h3 : key ≠ P.helpLong) (h4 : key ≠ P.helpShort)
    (h5 : key ≠ P.cfgLong) (h6 : key ≠ P.cfgShort) :
    (unmarshalArgsLoop P flags nfAcc nfs cfgs unknown done tr ((key ++ 61 :: v) :: rest)).view =
    (unmarshalArgsLoop P flags nfAcc nfs cfgs unknown done tr (key :: v :: rest)).view := by
  have hkne : key ≠ [] := by
    intro h
    rw [h] at hkdash
    simp [startsDash] at hkdash
  have hd1 : startsDash (key ++ 61 :: v) = true := by
    obtain ⟨b, k', rfl⟩ := List.exists_cons_of_ne_nil hkne
    simpa [startsDash] using hkdash
  rw [unmarshalArgsLoop_cons, unmarshalArgsLoop_cons]
  rw [uStep_key P flags nfAcc nfs cfgs unknown done tr (key ++ 61 :: v) rest h1 h2 hd1]
  rw [uStep_key P flags nfAcc nfs cfgs unknown done tr key (v :: rest) h3 h4 hkdash]
  rw [processKey_inline P flags (nfAcc.reverse ++ nfs) cfgs unknown done tr key v rest j f
    hkne hkeq h5 h6 hlk hv]
  rw [processKey_following P flags (nfAcc.reverse ++ nfs) cfgs unknown done tr key v rest j f
    hkeq h5 h6 hlk hnb hv hvdash]
  cases happ : applyValue P f.rv v with
  | none => rfl
  | some v' =>
    exact loop_view_done P rest.length rest (flags.set j { f with rv := v' }) nfAcc nfs cfgs
      unknown ((key ++ 61 :: v) :: done) (v :: key :: done) (tr ++ [.appliedF key v]) le_rfl

/-- Witness for C7: `--name=alice` and `--name alice` on the string flag
`--name`. -/
theorem C7_inline_vs_following_witness :
    (unmarshalArgsLoop P0 [nameFlag] [] [] [] [] [] []
      ((strBytes "--name" ++ 61 :: strBytes "alice") :: [])).view =
    (unmarshalArgsLoop P0 [nameFlag] [] [] [] [] [] []
      (strBytes "--name" :: strBytes "alice" :: [])).view :=
  C7_inline_vs_following P0 [nameFlag] [] [] [] [] [] []
    (strBytes "--name") (strBytes "alice") [] 0 nameFlag
    (by decide) (by decide) (by decide) (by decide) (by decide) (by decide)
    (by decide) (by decide) (by decide) (by decide) (by decide) (by decide)

/-! ## C6: required-flag checking -/

lemma flagPred_false_iff (P : Params) (args : List Tok) (f : FlagB)
    (wf : ¬(f.long = strBytes "-" ∧ f.short = strBytes "-")) :
    ((f.required && !(args.contains f.long) && !(args.contains f.short) &&
      valueIsZero P f.rv &&
      (!(f.long == strBytes "-") || !(f.short == strBytes "-"))) = false) ↔
    (f.required = true →
      (args.contains f.long = true ∨ args.contains f.short = true ∨
       valueIsZero P f.rv = false)) := by
  have hg : (!(f.long == strBytes "-") || !(f.short == strBytes "-")) = true := by
    rcases not_and_or.mp wf with h | h <;> simp [h]
  rw [hg]
  cases hr : f.required <;> cases hc1 : args.contains f.long <;>
    cases hc2 : args.contains f.short <;> cases hz : valueIsZero P f.rv <;> simp

/-- C6 (amended): after an argument pass with no restart, a required flag
is accepted exactly when its long or short name appears among the leftover
(unknown) tokens the pass stored back into the context — not the raw
argument vector — or its destination holds a non-zero value; otherwise
`checkRequires` reports the missing-flag condition (the first such flag,
under the default exit-on-error policy). -/
theorem C6_required_flag_check (P : Params) (args ctxArgs : List Tok)
    (flags nonflags flags' nonflags' : List FlagB)
    (cfgs : List (CfgRec BindRec)) (tr : List Ev)
    (hpass : unmarshalArgsLoop P flags [] nonflags cfgs [] [] [] args =
      .doneA flags' nonflags' ctxArgs tr)
    (wf : ∀ f ∈ flags', ¬(f.long = strBytes "-" ∧ f.short = strBytes "-")) :
    (checkFlagsMissing P ctxArgs flags' = none ↔
      ∀ f ∈ flags', f.required = true →
        (ctxArgs.contains f.long = true ∨ ctxArgs.contains f.short = true ∨
         valueIsZero P f.rv = false)) ∧
    (checkNonflags P ctxArgs nonflags' = none →
      (checkRequires P ctxArgs flags' nonflags' = none ↔
        ∀ f ∈ flags', f.required = true →
          (ctxArgs.contains f.long = true ∨ ctxArgs.contains f.short = true ∨
           valueIsZero P f.rv = false))) := by
  have hflags : checkFlagsMissing P ctxArgs flags' = none ↔
      ∀ f ∈ flags', f.required = true →
        (ctxArgs.contains f.long = true ∨ ctxArgs.contains f.short = true ∨
         valueIsZero P f.rv = false) := by
    unfold checkFlagsMissing
    rw [List.find?_eq_none]
    constructor
    · intro h f hf
      exact (flagPred_false_iff P ctxArgs f (wf f hf)).mp
        (Bool.eq_false_iff.mpr (h f hf))
    · intro h f hf
      rw [Bool.not_eq_true]
      exact (flagPred_false_iff P ctxArgs f (wf f hf)).mpr (h f hf)
  refine ⟨hflags, fun hnf => ?_⟩
  have hcr : checkRequires P ctxArgs flags' nonflags' = none ↔
      checkFlagsMissing P ctxArgs flags' = none := by
    unfold checkRequires
    rw [hnf]
    cases hcf : checkFlagsMissing P ctxArgs flags' <;> simp
  exact hcr.trans hflags

/-- Witness for C6 (amended): a required string flag `--name` supplied with
value `bob`. -/
theorem C6_required_flag_check_witness :
    (checkFlagsMissing P0 []
        [⟨strBytes "Name", strBytes "--name", strBytes "-n", true, [],
          .scalar (.strV (strBytes "bob"))⟩] = none ↔
      ∀ f ∈ [(⟨strBytes "Name", strBytes "--name", strBytes "-n", true, [],
          .scalar (.strV (strBytes "bob"))⟩ : FlagB)], f.required = true →
        (([] : List Tok).contains f.long = true ∨ ([] : List Tok).contains f.short = true ∨
         valueIsZero P0 f.rv = false)) ∧
    (checkNonflags P0 []
        ([] : List FlagB) = none →
      (checkRequires P0 []
          [⟨strBytes "Name", strBytes "--name", strBytes "-n", true, [],
            .scalar (.strV (strBytes "bob"))⟩] [] = none ↔
        ∀ f ∈ [(⟨strBytes "Name", strBytes "--name", strBytes "-n", true, [],
            .scalar (.strV (strBytes "bob"))⟩ : FlagB)], f.required = true →
          (([] : List Tok).contains f.long = true ∨ ([] : List Tok).contains f.short = true ∨
           valueIsZero P0 f.rv = false))) :=
  C6_required_flag_check P0 [strBytes "--name", strBytes "bob"] []
    [⟨strBytes "Name", strBytes "--name", strBytes "-n", true, [], .scalar (.strV [])⟩] []
    [⟨strBytes "Name", strBytes "--name", strBytes "-n", true, [],
      .scalar (.strV (strBytes "bob"))⟩] [] [] [.appliedF (strBytes "--name") (strBytes "bob")]
    (by rfl) (by decide)

/-- C6 counterexample: the required integer flag `--age` is supplied with
its zero value (`--age 0`): its name appears among the raw tokens, yet
after the pass the presence check inspects the (empty) leftover list and
the zero destination, and `checkRequires` reports `--age` as missing. -/
theorem C6_counterexample :
    unmarshalArgsLoop P0 [ageFlag] [] [] [] [] [] [] [strBytes "--age", strBytes "0"] =
      .doneA [{ ageFlag with rv := .scalar (.intV 0) }] [] []
        [.appliedF (strBytes "--age") (strBytes "0")] ∧
    checkRequires P0 [] [{ ageFlag with rv := .scalar (.intV 0) }] [] =
      some (.flagMissing (strBytes "--age")) ∧
    strBytes "--age" ∈ [strBytes "--age", strBytes "0"] :=
  ⟨by rfl, by rfl, by decide⟩

/-! ## C5: the restart loop terminates -/

lemma processKey_restart_only_cfg (P : Params) (flags nfAll : List FlagB)
    (cfgs : List (CfgRec BindRec)) (unknown done : List Tok) (tr : List Ev)
    (t : Tok) (rest : List Tok)
    (hc : ¬((splitKV t).1 = P.cfgLong ∨ (splitKV t).1 = P.cfgShort)) :
    (processKey P flags nfAll cfgs unknown done tr t rest).isRestartHalt = false := by
  simp only [processKey]
  rw [if_neg hc]
  split
  next jf hjf =>
    split
    · rfl
    · split
      · split
        · rfl
        · rfl
      · split
        · split
          · rfl
          · rfl
        · split
          next next' rest' =>
            split
            next => rfl
            next b bs =>
              split
              · split
                · rfl
                · rfl
              · rfl
          next => rfl
  next => split <;> rfl

lemma processKey_restart_prop (P : Params) (flags nfAll : List FlagB)
    (cfgs : List (CfgRec BindRec)) (unknown done : List Tok) (tr : List Ev)
    (t : Tok) (rest : List Tok) :
    (match processKey P flags nfAll cfgs unknown done tr t rest with
     | .halt (.restartA flags₂ nfs₂ cfgs₂ newArgs v tr₂) =>
       isCfgTok P t = true ∧ flags₂ = flags ∧ nfs₂ = nfAll ∧ tr₂ = tr ∧
       (∃ last, cfgs.getLast? = some last ∧
         cfgs₂ = cfgs.dropLast ++ [{ last with path := v, requireExist := true }]) ∧
       ((newArgs = done.reverse ++ rest ∧ (splitKV t).2.1 = v) ∨
        (∃ rest', rest = v :: rest' ∧ newArgs = done.reverse ++ rest' ∧
          (splitKV t).2.1 = []))
     | _ => True) := by
  split
  next flags₂ nfs₂ cfgs₂ newArgs v tr₂ heq =>
    by_cases hc : (splitKV t).1 = P.cfgLong ∨ (splitKV t).1 = P.cfgShort
    · have hcfg : isCfgTok P t = true := by
        rcases hc with h | h <;> simp [isCfgTok, h]
      cases hlast : cfgs.getLast? with
      | none =>
        have hpk : processKey P flags nfAll cfgs unknown done tr t rest =
            .halt (.oobCfgs tr) := by
          simp [processKey, hc, hlast]
        rw [hpk] at heq
        simp at heq
      | some last =>
        by_cases hval : (splitKV t).2.1 ≠ []
        · have hpk : processKey P flags nfAll cfgs unknown done tr t rest =
              .halt (.restartA flags nfAll
                (cfgs.dropLast ++ [{ last with path := (splitKV t).2.1, requireExist := true }])
                (done.reverse ++ rest) ((splitKV t).2.1) tr) := by
            simp [processKey, hc, hlast, hval]
          rw [hpk] at heq
          simp only [KeyRes.halt.injEq, AOut.restartA.injEq] at heq
          obtain ⟨e1, e2, e3, e4, e5, e6⟩ := heq
          subst e1; subst e2; subst e3; subst e4; subst e6
          exact ⟨hcfg, rfl, rfl, rfl, ⟨last, rfl, by rw [e5]⟩, Or.inl ⟨rfl, e5⟩⟩
        · cases rest with
          | nil =>
            have hpk : processKey P flags nfAll cfgs unknown done tr t [] =
                .halt (.fatalA (.requiresArg (splitKV t).1) tr) := by
              simp [processKey, hc, hlast, hval]
            rw [hpk] at heq
            simp at heq
          | cons next' rest' =>
            cases next' with
            | nil =>
              have hpk : processKey P flags nfAll cfgs unknown done tr t ([] :: rest') =
                  .halt (.oobTok tr) := by
                simp [processKey, hc, hlast, hval]
              rw [hpk] at heq
              simp at heq
            | cons b bs =>
              by_cases hb : b ≠ 45
              · have hpk : processKey P flags nfAll cfgs unknown done tr t ((b :: bs) :: rest') =
                    .halt (.restartA flags nfAll
                      (cfgs.dropLast ++ [{ last with path := b :: bs, requireExist := true }])
                      (done.reverse ++ rest') (b :: bs) tr) := by
                  simp [processKey, hc, hlast, hval, hb]
                rw [hpk] at heq
                simp only [KeyRes.halt.injEq, AOut.restartA.injEq] at heq
                obtain ⟨e1, e2, e3, e4, e5, e6⟩ := heq
                subst e1; subst e2; subst e3; subst e4; subst e6
                exact ⟨hcfg, rfl, rfl, rfl, ⟨last, rfl, by rw [e5]⟩,
                  Or.inr ⟨rest', by rw [e5], rfl, not_ne_iff.mp hval⟩⟩
              · have hpk : processKey P flags nfAll cfgs unknown done tr t ((b :: bs) :: rest') =
                    .halt (.fatalA (.requiresArg (splitKV t).1) tr) := by
                  simp [processKey, hc, hlast, hval, hb]
                rw [hpk] at heq
                simp at heq
    · exfalso
      have hnr := processKey_restart_only_cfg P flags nfAll cfgs unknown done tr t rest hc
      rw [heq] at hnr
      simp [KeyRes.isRestartHalt] at hnr
  all_goals trivial

lemma uStep_restart_prop (P : Params) (flags nfAcc nfs : List FlagB)
    (cfgs : List (CfgRec BindRec)) (unknown done : List Tok) (tr : List Ev)
    (t : Tok) (rest : List Tok) :
    (match uStep P flags nfAcc nfs cfgs unknown done tr t rest with
     | .halt (.restartA flags₂ nfs₂ cfgs₂ newArgs v tr₂) =>
       isCfgTok P t = true ∧ flags₂ = flags ∧ tr₂ = tr ∧
       (∃ last, cfgs.getLast? = some last ∧
         cfgs₂ = cfgs.dropLast ++ [{ last with path := v, requireExist := true }]) ∧
       ((newArgs = done.reverse ++ rest ∧ (splitKV t).2.1 = v) ∨
        (∃ rest', rest = v :: rest' ∧ newArgs = done.reverse ++ rest' ∧
          (splitKV t).2.1 = []))
     | _ => True) := by
  split
  next flags₂ nfs₂ cfgs₂ newArgs v tr₂ heq =>
    by_cases hh : t = P.helpLong ∨ t = P.helpShort
    · have hu : uStep P flags nfAcc nfs cfgs unknown done tr t rest = .halt (.abortA tr) := by
        simp [uStep, hh]
      rw [hu] at heq
      simp at heq
    · cases nfs with
      | nil =>
        have hu : uStep P flags nfAcc [] cfgs unknown done tr t rest =
            (match processKey P flags nfAcc.reverse cfgs unknown done tr t rest with
             | .halt o => .halt o
             | .cont flags' unknown' tr' => .cont1 flags' nfAcc [] unknown' tr'
             | .cont2 flags' tr' => .cont2c flags' nfAcc [] tr') := by
          simp [uStep, hh]
        rw [hu] at heq
        have hp := processKey_restart_prop P flags nfAcc.reverse cfgs unknown done tr t rest
        cases hpk : processKey P flags nfAcc.reverse cfgs unknown done tr t rest with
        | halt o =>
          rw [hpk] at heq hp
          cases o with
          | restartA f2 n2 c2 na v2 t2 =>
            simp only [StepOut.halt.injEq, AOut.restartA.injEq] at heq
            obtain ⟨e1, e2, e3, e4, e5, e6⟩ := heq
            subst e1; subst e2; subst e3; subst e4; subst e5; subst e6
            exact ⟨hp.1, hp.2.1, hp.2.2.2.1, hp.2.2.2.2.1, hp.2.2.2.2.2⟩
          | doneA a b c d => simp at heq
          | abortA a => simp at heq
          | fatalA a b => simp at heq
          | oobTok a => simp at heq
          | oobCfgs a => simp at heq
        | cont a b c => rw [hpk] at heq; simp at heq
        | cont2 a b => rw [hpk] at heq; simp at heq
      | cons nf nfs' =>
        by_cases hdash : startsDash t = true
        · have hu : uStep P flags nfAcc (nf :: nfs') cfgs unknown done tr t rest =
              (match processKey P flags (nfAcc.reverse ++ nf :: nfs') cfgs unknown done tr t rest with
               | .halt o => .halt o
               | .cont flags' unknown' tr' => .cont1 flags' nfAcc (nf :: nfs') unknown' tr'
               | .cont2 flags' tr' => .cont2c flags' nfAcc (nf :: nfs') tr') := by
            simp [uStep, hh, hdash]
          rw [hu] at heq
          have hp := processKey_restart_prop P flags (nfAcc.reverse ++ nf :: nfs') cfgs unknown done tr t rest
          cases hpk : processKey P flags (nfAcc.reverse ++ nf :: nfs') cfgs unknown done tr t rest with
          | halt o =>
            rw [hpk] at heq hp
            cases o with
            | restartA f2 n2 c2 na v2 t2 =>
              simp only [StepOut.halt.injEq, AOut.restartA.injEq] at heq
              obtain ⟨e1, e2, e3, e4, e5, e6⟩ := heq
              subst e1; subst e2; subst e3; subst e4; subst e5; subst e6
              exact ⟨hp.1, hp.2.1, hp.2.2.2.1, hp.2.2.2.2.1, hp.2.2.2.2.2⟩
            | doneA a b c d => simp at heq
            | abortA a => simp at heq
            | fatalA a b => simp at heq
            | oobTok a => simp at heq
            | oobCfgs a => simp at heq
          | cont a b c => rw [hpk] at heq; simp at heq
          | cont2 a b => rw [hpk] at heq; simp at heq
        · cases happ : applyValue P nf.rv t with
          | none =>
            have hu : uStep P flags nfAcc (nf :: nfs') cfgs unknown done tr t rest =
                .halt (.fatalA (.coerce t) tr) := by
              simp [uStep, hh, hdash, happ]
            rw [hu] at heq
            simp at heq
          | some v' =>
            cases hsl : nf.rv.isSlice with
            | true =>
              have hu : uStep P flags nfAcc (nf :: nfs') cfgs unknown done tr t rest =
                  .cont1 flags nfAcc ({ nf with rv := v' } :: nfs') unknown
                    (tr ++ [.appliedPos t]) := by
                simp [uStep, hh, hdash, happ, hsl]
              rw [hu] at heq
              simp at heq
            | false =>
              have hu : uStep P flags nfAcc (nf :: nfs') cfgs unknown done tr t rest =
                  .cont1 flags ({ nf with rv := v' } :: nfAcc) nfs' unknown
                    (tr ++ [.appliedPos t]) := by
                simp [uStep, hh, hdash, happ, hsl]
              rw [hu] at heq
              simp at heq
  all_goals trivial

lemma uArgs_restart (P : Params) :
    ∀ (n : Nat) (args : List Tok), args.length ≤ n →
    ∀ (flags nfAcc nfs : List FlagB) (cfgs : List (CfgRec BindRec))
      (unknown done : List Tok) (tr : List Ev)
      (flags₂ nfs₂ : List FlagB) (cfgs₂ : List (CfgRec BindRec))
      (newArgs : List Tok) (v : Tok) (tr₂ : List Ev),
      unmarshalArgsLoop P flags nfAcc nfs cfgs unknown done tr args =
        .restartA flags₂ nfs₂ cfgs₂ newArgs v tr₂ →
      (∃ last, cfgs.getLast? = some last ∧
        cfgs₂ = cfgs.dropLast ++ [{ last with path := v, requireExist := true }]) ∧
      (∃ pre post t0, isCfgTok P t0 = true ∧
        ((done.reverse ++ args = pre ++ t0 :: post ∧ newArgs = pre ++ post) ∨
         (done.reverse ++ args = pre ++ t0 :: v :: post ∧ newArgs = pre ++ post))) := by
  intro n
  induction n with
  | zero =>
    intro args hlen
    have hargs : args = [] := List.eq_nil_of_length_eq_zero (Nat.le_zero.mp hlen)
    subst hargs
    intro flags nfAcc nfs cfgs unknown done tr flags₂ nfs₂ cfgs₂ newArgs v tr₂ h
    simp only [unmarshalArgsLoop] at h
    exact AOut.noConfusion h
  | succ m ih =>
    intro args hlen
    cases args with
    | nil =>
      intro flags nfAcc nfs cfgs unknown done tr flags₂ nfs₂ cfgs₂ newArgs v tr₂ h
      simp only [unmarshalArgsLoop] at h
      exact AOut.noConfusion h
    | cons t rest =>
      intro flags nfAcc nfs cfgs unknown done tr flags₂ nfs₂ cfgs₂ newArgs v tr₂ h
      rw [unmarshalArgsLoop_cons] at h
      have hp := uStep_restart_prop P flags nfAcc nfs cfgs unknown done tr t rest
      cases hstep : uStep P flags nfAcc nfs cfgs unknown done tr t rest with
      | halt o =>
        rw [hstep] at h hp
        subst h
        refine ⟨hp.2.2.2.1, done.reverse, ?_⟩
        rcases hp.2.2.2.2 with ⟨hn, _⟩ | ⟨rest', hrest, hn, _⟩
        · exact ⟨rest, t, hp.1, Or.inl ⟨rfl, hn⟩⟩
        · exact ⟨rest', t, hp.1, Or.inr ⟨by rw [hrest], hn⟩⟩
      | cont1 flags' nfAcc' nfs' unknown' tr' =>
        rw [hstep] at h
        have hlen' : rest.length ≤ m := by
          simpa [List.length_cons, Nat.succ_le_succ_iff] using hlen
        obtain ⟨h1, pre, post, t0, ht0, hdisj⟩ :=
          ih rest hlen' flags' nfAcc' nfs' cfgs unknown' (t :: done) tr'
            flags₂ nfs₂ cfgs₂ newArgs v tr₂ h
        refine ⟨h1, pre, post, t0, ht0, ?_⟩
        rw [show done.reverse ++ t :: rest = (t :: done).reverse ++ rest from by simp]
        exact hdisj
      | cont2c flags' nfAcc' nfs' tr' =>
        rw [hstep] at h
        cases rest with
        | nil => simp at h
        | cons w rest' =>
          have hlen' : rest'.length ≤ m := by
            simp only [List.length_cons] at hlen
            omega
          obtain ⟨h1, pre, post, t0, ht0, hdisj⟩ :=
            ih rest' hlen' flags' nfAcc' nfs' cfgs unknown (w :: t :: done) tr'
              flags₂ nfs₂ cfgs₂ newArgs v tr₂ h
          refine ⟨h1, pre, post, t0, ht0, ?_⟩
          rw [show done.reverse ++ t :: w :: rest' = (w :: t :: done).reverse ++ rest'
            from by simp]
          exact hdisj

lemma passF_restart_count (P : Params) (st st' : PState) (v : Tok) (tr : List Ev)
    (h : passF P st = .restartP st' v tr) :
    countCfgToks P st'.args < countCfgToks P st.args := by
  unfold passF at h
  cases hc : unmarshalConfigs st.cfgs (st.flags, st.nonflags) with
  | none => rw [hc] at h; exact POut.noConfusion h
  | some p =>
    obtain ⟨r₁, tr₁⟩ := p
    rw [hc] at h
    dsimp only at h
    cases hu : unmarshalArgsLoop P (st.envs.foldl (fun r tf => tf r) r₁).1 []
        (st.envs.foldl (fun r tf => tf r) r₁).2 st.cfgs [] [] [] st.args with
    | doneA f2 n2 u2 t2 =>
      rw [hu] at h
      dsimp only at h
      cases hcr : checkRequires P u2 f2 n2 with
      | none => rw [hcr] at h; exact POut.noConfusion h
      | some e => rw [hcr] at h; exact POut.noConfusion h
    | abortA t2 => rw [hu] at h; exact POut.noConfusion h
    | fatalA m t2 => rw [hu] at h; exact POut.noConfusion h
    | oobTok t2 => rw [hu] at h; exact POut.noConfusion h
    | oobCfgs t2 => rw [hu] at h; exact POut.noConfusion h
    | restartA f2 n2 c2 na v2 t2 =>
      rw [hu] at h
      simp only [POut.restartP.injEq] at h
      obtain ⟨h1, h2, h3⟩ := h
      subst h1
      obtain ⟨-, pre, post, t0, ht0, hdisj⟩ :=
        uArgs_restart P st.args.length st.args le_rfl
          (st.envs.foldl (fun r tf => tf r) r₁).1 []
          (st.envs.foldl (fun r tf => tf r) r₁).2 st.cfgs [] [] []
          f2 n2 c2 na v2 t2 hu
      simp only [List.reverse_nil, List.nil_append] at hdisj
      show countCfgToks P na < countCfgToks P st.args
      rcases hdisj with ⟨he, hn⟩ | ⟨he, hn⟩
      · subst hn; rw [he]
        simp [countCfgToks, List.countP_append, List.countP_cons, ht0]
      · subst hn; rw [he]
        simp only [countCfgToks, List.countP_append, List.countP_cons, ht0]
        cases hv : isCfgTok P v2 <;> simp [hv] <;> omega

lemma parseLoop_no_fuelOut (P : Params) :
    ∀ (fuel : Nat) (st : PState), countCfgToks P st.args < fuel →
      (parseLoop P fuel st).1 ≠ PFinal.fuelOutF := by
  intro fuel
  induction fuel with
  | zero => intro st h; exact absurd h (Nat.not_lt_zero _)
  | succ n ih =>
    intro st h
    simp only [parseLoop]
    cases hp : passF P st with
    | restartP st' v tr =>
      dsimp only
      have hlt := passF_restart_count P st st' v tr hp
      exact ih st' (by omega)
    | doneP f nf u tr => simp
    | abortP tr => simp
    | fatalP tr => simp
    | oobP tr => simp

/-- C5: every restart of `Parse`'s loop strictly decreases the number of
configuration-path flag tokens in the argument vector (the discovered
`--config`/`-c` token, and its value when given as a separate token, are
removed), so the loop never exhausts a fuel budget larger than the number
of configuration-path tokens in the initial arguments: the restart loop
terminates, with at most `countCfgToks` restarts. -/
theorem C5_restart_bounded (P : Params) (st st' : PState) (v : Tok) (tr : List Ev)
    (fuel : Nat) (hfuel : countCfgToks P st.args < fuel) :
    (passF P st = POut.restartP st' v tr →
      countCfgToks P st'.args < countCfgToks P st.args) ∧
    (parseLoop P fuel st).1 ≠ PFinal.fuelOutF :=
  ⟨fun h => passF_restart_count P st st' v tr h, parseLoop_no_fuelOut P fuel st hfuel⟩

theorem C5_restart_bounded_witness :
    countCfgToks P0 [strBytes "--config=x"] < 2 ∧
    ((passF P0 ⟨[strBytes "--config=x"], [nameFlag], [], [cfg0], []⟩ =
        POut.restartP ⟨[], [nameFlag], [], [cfg0], []⟩ [] [] →
      countCfgToks P0 ([] : List Tok) < countCfgToks P0 [strBytes "--config=x"]) ∧
    (parseLoop P0 2 ⟨[strBytes "--config=x"], [nameFlag], [], [cfg0], []⟩).1 ≠
      PFinal.fuelOutF) :=
  ⟨by decide,
    C5_restart_bounded P0 ⟨[strBytes "--config=x"], [nameFlag], [], [cfg0], []⟩
      ⟨[], [nameFlag], [], [cfg0], []⟩ [] [] 2 (by decide)⟩

/-! ## C4: the configuration-path flag -/

lemma processKey_trace (P : Params) (flags nfAll : List FlagB)
    (cfgs : List (CfgRec BindRec)) (unknown done : List Tok) (tr : List Ev)
    (t : Tok) (rest : List Tok) :
    ∃ suf, (processKey P flags nfAll cfgs unknown done tr t rest).trOf = tr ++ suf ∧
      ∀ e ∈ suf, e.isDecoded = false := by
  simp only [processKey]
  repeat' split
  all_goals first
    | exact ⟨[], (List.append_nil tr).symm, by simp⟩
    | exact ⟨[Ev.appliedF _ _], rfl, by simp [Ev.isDecoded]⟩

lemma uStep_trace (P : Params) (flags nfAcc nfs : List FlagB)
    (cfgs : List (CfgRec BindRec)) (unknown done : List Tok) (tr : List Ev)
    (t : Tok) (rest : List Tok) :
    ∃ suf, (uStep P flags nfAcc nfs cfgs unknown done tr t rest).trOf = tr ++ suf ∧
      ∀ e ∈ suf, e.isDecoded = false := by
  by_cases hh : t = P.helpLong ∨ t = P.helpShort
  · have hu : uStep P flags nfAcc nfs cfgs unknown done tr t rest = .halt (.abortA tr) := by
      simp [uStep, hh]
    rw [hu]
    exact ⟨[], (List.append_nil tr).symm, by simp⟩
  · cases nfs with
    | nil =>
      have hu : uStep P flags nfAcc [] cfgs unknown done tr t rest =
          (match processKey P flags nfAcc.reverse cfgs unknown done tr t rest with
           | .halt o => .halt o
           | .cont flags' unknown' tr' => .cont1 flags' nfAcc [] unknown' tr'
           | .cont2 flags' tr' => .cont2c flags' nfAcc [] tr') := by
        simp [uStep, hh]
      rw [hu]
      obtain ⟨suf, hs, ha⟩ := processKey_trace P flags nfAcc.reverse cfgs unknown done tr t rest
      cases hpk : processKey P flags nfAcc.reverse cfgs unknown done tr t rest with
      | halt o => rw [hpk] at hs; exact ⟨suf, hs, ha⟩
      | cont a b c => rw [hpk] at hs; exact ⟨suf, hs, ha⟩
      | cont2 a b => rw [hpk] at hs; exact ⟨suf, hs, ha⟩
    | cons nf nfs' =>
      by_cases hdash : startsDash t = true
      · have hu : uStep P flags nfAcc (nf :: nfs') cfgs unknown done tr t rest =
            (match processKey P flags (nfAcc.reverse ++ nf :: nfs') cfgs unknown done tr t rest with
             | .halt o => .halt o
             | .cont flags' unknown' tr' => .cont1 flags' nfAcc (nf :: nfs') unknown' tr'
             | .cont2 flags' tr' => .cont2c flags' nfAcc (nf :: nfs') tr') := by
          simp [uStep, hh, hdash]
        rw [hu]
        obtain ⟨suf, hs, ha⟩ :=
          processKey_trace P flags (nfAcc.reverse ++ nf :: nfs') cfgs unknown done tr t rest
        cases hpk : processKey P flags (nfAcc.reverse ++ nf :: nfs') cfgs unknown done tr t rest with
        | halt o => rw [hpk] at hs; exact ⟨suf, hs, ha⟩
        | cont a b c => rw [hpk] at hs; exact ⟨suf, hs, ha⟩
        | cont2 a b => rw [hpk] at hs; exact ⟨suf, hs, ha⟩
      · cases happ : applyValue P nf.rv t with
        | none =>
          have hu : uStep P flags nfAcc (nf :: nfs') cfgs unknown done tr t rest =
              .halt (.fatalA (.coerce t) tr) := by
            simp [uStep, hh, hdash, happ]
          rw [hu]
          exact ⟨[], (List.append_nil tr).symm, by simp⟩
        | some v' =>
          cases hsl : nf.rv.isSlice with
          | true =>
            have hu : uStep P flags nfAcc (nf :: nfs') cfgs unknown done tr t rest =
                .cont1 flags nfAcc ({ nf with rv := v' } :: nfs') unknown
                  (tr ++ [.appliedPos t]) := by
              simp [uStep, hh, hdash, happ, hsl]
            rw [hu]
            exact ⟨[Ev.appliedPos t], rfl, by simp [Ev.isDecoded]⟩
          | false =>
            have hu : uStep P flags nfAcc (nf :: nfs') cfgs unknown done tr t rest =
                .cont1 flags ({ nf with rv := v' } :: nfAcc) nfs' unknown
                  (tr ++ [.appliedPos t]) := by
              simp [uStep, hh, hdash, happ, hsl]
            rw [hu]
            exact ⟨[Ev.appliedPos t], rfl, by simp [Ev.isDecoded]⟩

lemma uArgs_trace (P : Params) :
    ∀ (n : Nat) (args : List Tok), args.length ≤ n →
    ∀ (flags nfAcc nfs : List FlagB) (cfgs : List (CfgRec BindRec))
      (unknown done : List Tok) (tr : List Ev)
      (f2 n2 : List FlagB) (u2 : List Tok) (tr2 : List Ev),
      unmarshalArgsLoop P flags nfAcc nfs cfgs unknown done tr args = .doneA f2 n2 u2 tr2 →
      ∃ suf, tr2 = tr ++ suf ∧ ∀ e ∈ suf, e.isDecoded = false := by
  intro n
  induction n with
  | zero =>
    intro args hlen
    have hargs : args = [] := List.eq_nil_of_length_eq_zero (Nat.le_zero.mp hlen)
    subst hargs
    intro flags nfAcc nfs cfgs unknown done tr f2 n2 u2 tr2 h
    simp only [unmarshalArgsLoop, AOut.doneA.injEq] at h
    exact ⟨[], by rw [← h.2.2.2]; simp, by simp⟩
  | succ m ih =>
    intro args hlen
    cases args with
    | nil =>
      intro flags nfAcc nfs cfgs unknown done tr f2 n2 u2 tr2 h
      simp only [unmarshalArgsLoop, AOut.doneA.injEq] at h
      exact ⟨[], by rw [← h.2.2.2]; simp, by simp⟩
    | cons t rest =>
      intro flags nfAcc nfs cfgs unknown done tr f2 n2 u2 tr2 h
      rw [unmarshalArgsLoop_cons] at h
      obtain ⟨suf₀, hs₀, ha₀⟩ := uStep_trace P flags nfAcc nfs cfgs unknown done tr t rest
      cases hstep : uStep P flags nfAcc nfs cfgs unknown done tr t rest with
      | halt o =>
        rw [hstep] at h hs₀
        subst h
        exact ⟨suf₀, hs₀, ha₀⟩
      | cont1 flags' nfAcc' nfs' unknown' tr' =>
        rw [hstep] at h hs₀
        have hs₀' : tr' = tr ++ suf₀ := hs₀
        have hlen' : rest.length ≤ m := by
          simpa [List.length_cons, Nat.succ_le_succ_iff] using hlen
        obtain ⟨suf₁, hs₁, ha₁⟩ :=
          ih rest hlen' flags' nfAcc' nfs' cfgs unknown' (t :: done) tr' f2 n2 u2 tr2 h
        refine ⟨suf₀ ++ suf₁, ?_, ?_⟩
        · rw [hs₁, hs₀', List.append_assoc]
        · intro e he
          rcases List.mem_append.mp he with h1 | h1
          · exact ha₀ e h1
          · exact ha₁ e h1
      | cont2c flags' nfAcc' nfs' tr' =>
        rw [hstep] at h hs₀
        have hs₀' : tr' = tr ++ suf₀ := hs₀
        cases rest with
        | nil => exact AOut.noConfusion h
        | cons w rest' =>
          have hlen' : rest'.length ≤ m := by
            simp only [List.length_cons] at hlen
            omega
          obtain ⟨suf₁, hs₁, ha₁⟩ :=
            ih rest' hlen' flags' nfAcc' nfs' cfgs unknown (w :: t :: done) tr' f2 n2 u2 tr2 h
          refine ⟨suf₀ ++ suf₁, ?_, ?_⟩
          · rw [hs₁, hs₀', List.append_assoc]
          · intro e he
            rcases List.mem_append.mp he with h1 | h1
            · exact ha₀ e h1
            · exact ha₁ e h1

lemma unmarshalConfigs_all_ok :
    ∀ (cfgs : List (CfgRec BindRec)) (r : BindRec),
      (∀ cfg ∈ cfgs, ∃ tf, cfg.um cfg.path = some (some tf)) →
      ∃ r', unmarshalConfigs cfgs r = some (r', cfgs.map fun c => Ev.decoded c.path) := by
  intro cfgs
  induction cfgs with
  | nil => intro r _; exact ⟨r, rfl⟩
  | cons c rest ih =>
    intro r h
    obtain ⟨tf, htf⟩ := h c (List.mem_cons_self _ _)
    obtain ⟨r', hr'⟩ := ih (tf r) (fun cfg hm => h cfg (List.mem_cons_of_mem _ hm))
    refine ⟨r', ?_⟩
    simp only [unmarshalConfigs, htf, hr', List.map_cons]

lemma passF_restart_shape (P : Params) (st st' : PState) (v : Tok) (tr : List Ev)
    (h : passF P st = .restartP st' v tr) :
    (∃ last, st.cfgs.getLast? = some last ∧
      st'.cfgs = st.cfgs.dropLast ++ [{ last with path := v, requireExist := true }]) ∧
    (∃ pre post t0, isCfgTok P t0 = true ∧
      ((st.args = pre ++ t0 :: post ∧ st'.args = pre ++ post) ∨
       (st.args = pre ++ t0 :: v :: post ∧ st'.args = pre ++ post))) := by
  unfold passF at h
  cases hc : unmarshalConfigs st.cfgs (st.flags, st.nonflags) with
  | none => rw [hc] at h; exact POut.noConfusion h
  | some p =>
    obtain ⟨r₁, tr₁⟩ := p
    rw [hc] at h
    dsimp only at h
    cases hu : unmarshalArgsLoop P (st.envs.foldl (fun r tf => tf r) r₁).1 []
        (st.envs.foldl (fun r tf => tf r) r₁).2 st.cfgs [] [] [] st.args with
    | doneA f2 n2 u2 t2 =>
      rw [hu] at h
      dsimp only at h
      cases hcr : checkRequires P u2 f2 n2 with
      | none => rw [hcr] at h; exact POut.noConfusion h
      | some e => rw [hcr] at h; exact POut.noConfusion h
    | abortA t2 => rw [hu] at h; exact POut.noConfusion h
    | fatalA m t2 => rw [hu] at h; exact POut.noConfusion h
    | oobTok t2 => rw [hu] at h; exact POut.noConfusion h
    | oobCfgs t2 => rw [hu] at h; exact POut.noConfusion h
    | restartA f2 n2 c2 na v2 t2 =>
      rw [hu] at h
      simp only [POut.restartP.injEq] at h
      obtain ⟨h1, h2, h3⟩ := h
      subst h1
      subst h2
      obtain ⟨hcfg, pre, post, t0, ht0, hdisj⟩ :=
        uArgs_restart P st.args.length st.args le_rfl
          (st.envs.foldl (fun r tf => tf r) r₁).1 []
          (st.envs.foldl (fun r tf => tf r) r₁).2 st.cfgs [] [] []
          f2 n2 c2 na v2 t2 hu
      simp only [List.reverse_nil, List.nil_append] at hdisj
      exact ⟨hcfg, pre, post, t0, ht0, hdisj⟩

lemma passF_done_trace (P : Params) (st : PState) (f2 n2 : List FlagB) (u2 : List Tok)
    (tr2 : List Ev)
    (hok : ∀ cfg ∈ st.cfgs, ∃ tf, cfg.um cfg.path = some (some tf))
    (h : passF P st = .doneP f2 n2 u2 tr2) :
    ∃ suf, tr2 = (st.cfgs.map fun c => Ev.decoded c.path) ++ suf ∧
      ∀ e ∈ suf, e.isDecoded = false := by
  obtain ⟨r₁, hc⟩ := unmarshalConfigs_all_ok st.cfgs (st.flags, st.nonflags) hok
  unfold passF at h
  rw [hc] at h
  dsimp only at h
  cases hu : unmarshalArgsLoop P (st.envs.foldl (fun r tf => tf r) r₁).1 []
      (st.envs.foldl (fun r tf => tf r) r₁).2 st.cfgs [] [] [] st.args with
  | doneA f2' n2' u2' t2' =>
    rw [hu] at h
    dsimp only at h
    cases hcr : checkRequires P u2' f2' n2' with
    | some e => rw [hcr] at h; exact POut.noConfusion h
    | none =>
      rw [hcr] at h
      simp only [POut.doneP.injEq] at h
      obtain ⟨-, -, -, h4⟩ := h
      obtain ⟨suf, hs, ha⟩ :=
        uArgs_trace P st.args.length st.args le_rfl
          (st.envs.foldl (fun r tf => tf r) r₁).1 []
          (st.envs.foldl (fun r tf => tf r) r₁).2 st.cfgs [] [] []
          f2' n2' u2' t2' hu
      refine ⟨suf, ?_, ha⟩
      rw [← h4, hs]
      simp
  | abortA t2 => rw [hu] at h; exact POut.noConfusion h
  | fatalA m t2 => rw [hu] at h; exact POut.noConfusion h
  | oobTok t2 => rw [hu] at h; exact POut.noConfusion h
  | oobCfgs t2 => rw [hu] at h; exact POut.noConfusion h
  | restartA f2' n2' c2 na v2 t2 => rw [hu] at h; exact POut.noConfusion h

/-- C4: when a pass discovers a configuration-path flag (inline `--config=v`
or two-token `--config v`), it restarts with the previously registered
(last) config source's path set to `v` and marked must-exist, the flag
token — and, in the two-token form, its value — removed from the argument
list; and on the restarted pass, provided every config source decodes, the
file at `v` is among the decoded sources and every decode event precedes
every flag/positional application event in the pass trace. -/
theorem C4_config_flag_restart (P : Params) (st st' : PState) (v : Tok) (tr : List Ev)
    (h : passF P st = POut.restartP st' v tr) :
    (∃ last, st.cfgs.getLast? = some last ∧
      st'.cfgs = st.cfgs.dropLast ++ [{ last with path := v, requireExist := true }]) ∧
    (∃ pre post t0, isCfgTok P t0 = true ∧
      ((st.args = pre ++ t0 :: post ∧ st'.args = pre ++ post) ∨
       (st.args = pre ++ t0 :: v :: post ∧ st'.args = pre ++ post))) ∧
    ((∀ cfg ∈ st'.cfgs, ∃ tf, cfg.um cfg.path = some (some tf)) →
      (Ev.decoded v ∈ st'.cfgs.map fun c => Ev.decoded c.path) ∧
      ∀ f2 n2 u2 tr2, passF P st' = POut.doneP f2 n2 u2 tr2 →
        ∃ suf, tr2 = (st'.cfgs.map fun c => Ev.decoded c.path) ++ suf ∧
          ∀ e ∈ suf, e.isDecoded = false) := by
  obtain ⟨ha, hb⟩ := passF_restart_shape P st st' v tr h
  refine ⟨ha, hb, fun hok => ⟨?_, fun f2 n2 u2 tr2 hdone =>
    passF_done_trace P st' f2 n2 u2 tr2 hok hdone⟩⟩
  obtain ⟨last, hlast, hcfgs⟩ := ha
  rw [hcfgs]
  simp

theorem C4_config_flag_restart_witness :
    (passF P0 st4 = POut.restartP st4' (strBytes "x") [Ev.decoded []]) ∧
    ((∃ last, st4.cfgs.getLast? = some last ∧
        st4'.cfgs = st4.cfgs.dropLast ++
          [{ last with path := strBytes "x", requireExist := true }]) ∧
     (∃ pre post t0, isCfgTok P0 t0 = true ∧
        ((st4.args = pre ++ t0 :: post ∧ st4'.args = pre ++ post) ∨
         (st4.args = pre ++ t0 :: strBytes "x" :: post ∧ st4'.args = pre ++ post))) ∧
     ((∀ cfg ∈ st4'.cfgs, ∃ tf, cfg.um cfg.path = some (some tf)) →
        (Ev.decoded (strBytes "x") ∈ st4'.cfgs.map fun c => Ev.decoded c.path) ∧
        ∀ f2 n2 u2 tr2, passF P0 st4' = POut.doneP f2 n2 u2 tr2 →
          ∃ suf, tr2 = (st4'.cfgs.map fun c => Ev.decoded c.path) ++ suf ∧
            ∀ e ∈ suf, e.isDecoded = false)) :=
  ⟨rfl, C4_config_flag_restart P0 st4 st4' (strBytes "x") [Ev.decoded []] rfl⟩
